import Mathlib

/-!
# Sia-UI Files plugin: the view-derivation helpers of `sagas/helpers.js`

A shallow embedding of `src/plugins/Files/js/sagas/helpers.js`.

* JavaScript strings are modelled by their character sequences (`Str`); they
  are compared as JavaScript compares them, by their UTF-16 code units
  (`codeUnits`).
* Immutable.js `List`s are Lean lists; an `OrderedSet` is the list of its
  elements in insertion order; a `Map` is an association list.
* JavaScript numbers and `BigNumber`s are rationals extended with the
  non-finite values (`Num`); `filesize` is a natural number of bytes.  The
  results of `toNumber()`, of the string conversion in `Math.max` and of the
  progress arithmetic of `parseDownloads` are rounded to doubles (`toDouble`).
* A JavaScript exception is `none`.
-/

namespace SiaUI

/-- A JavaScript string, as the sequence of its characters. -/
abbrev Str := List Char

/-- The UTF-16 code units of a character: itself below `0x10000`, otherwise a
high and a low surrogate. -/
def utf16Units (c : Char) : List ℕ :=
  if c.toNat < 65536 then [c.toNat]
  else [55296 + (c.toNat - 65536) / 1024, 56320 + (c.toNat - 65536) % 1024]

/-- The UTF-16 code units of a string.  JavaScript's `<` and `>` on strings
compare these sequences lexicographically, so `a <= b` in JavaScript is
`codeUnits a ≤ codeUnits b`. -/
def codeUnits : Str → List ℕ
  | [] => []
  | c :: s => utf16Units c ++ codeUnits s

/-- A file record as returned by `/renter/files`. -/
structure SiaFile where
  siapath : Str
  filesize : ℕ
  redundancy : ℚ
  uploadprogress : ℚ
  available : Bool
deriving DecidableEq

/-! ## Immutable.js collection operations -/

/-- Immutable's `indexOf` on a list of strings: the first index holding the
searched value, `-1` when there is none.  The searched value is `none` when
it is `undefined`, which no string equals. -/
def indexOf (xs : List Str) : Option Str → ℤ
  | none => -1
  | some x => if x ∈ xs then (List.findIdx (fun y => decide (y = x)) xs : ℤ) else -1

/-- Immutable's `resolveIndex`: a negative index counts from the end, and
the result is clamped to `[0, size]`. -/
def resolveIndex (index : ℤ) (size : ℕ) : ℕ :=
  if index < 0 then (max 0 ((size : ℤ) + index)).toNat else (min (size : ℤ) index).toNat

/-- Immutable's `List.slice(begin, end)`. -/
def slice {α : Type} (xs : List α) (b e : ℤ) : List α :=
  (xs.drop (resolveIndex b xs.length)).take (resolveIndex e xs.length - resolveIndex b xs.length)

/-- Building an `OrderedSet` from a sequence: a value already present keeps
its first position, later occurrences are dropped. -/
def toOrderedSet {α : Type} [DecidableEq α] (xs : List α) : List α :=
  xs.foldl (fun acc x => if x ∈ acc then acc else acc ++ [x]) []

/-! ## `rangeSelect` -/

/-- The function `rangeSelect(file, files, selectedFiles)`.  `selectedFiles` is an
`OrderedSet`, so `selectedFiles.map` is again an `OrderedSet` (of siapaths). -/
def rangeSelect (file : SiaFile) (files : List SiaFile) (selectedFiles : List SiaFile) :
    List SiaFile :=
  let siapaths := files.map (fun f => f.siapath)
  let selectedSiapaths := toOrderedSet (selectedFiles.map (fun selectedfile => selectedfile.siapath))
  let endSelectionIndex := indexOf siapaths (some file.siapath)
  let startSelectionIndex := indexOf siapaths selectedSiapaths.head?
  let p : ℤ × ℤ :=
    if startSelectionIndex > endSelectionIndex then
      (endSelectionIndex, indexOf siapaths selectedSiapaths.getLast?)
    else (startSelectionIndex, endSelectionIndex)
  toOrderedSet (slice files p.1 (p.2 + 1))

/-! ## Node's `path.posix`

Paths are handled through their `/`-separated segments.  `cwd` is the list of
segments of `process.cwd()`, an absolute normalised directory. -/

/-- Segments joined by `/`. -/
def joinSegments (segs : List Str) : Str := List.intercalate ['/'] segs

/-- Node's `normalizeStringPosix` on the segments of a path: empty and `.`
segments are dropped, `..` removes the segment before it, and is itself kept
only above the start of a relative path (`allowAboveRoot`). -/
def normalizeSegments (allowAboveRoot : Bool) (segs : List Str) : List Str :=
  segs.foldl (fun res seg =>
    if seg = [] ∨ seg = ['.'] then res
    else if seg = ['.', '.'] then
      (if res ≠ [] ∧ res.getLast? ≠ some ['.', '.'] then res.dropLast
       else if allowAboveRoot then res ++ [['.', '.']] else res)
    else res ++ [seg]) []

/-- Node's `path.posix.normalize`. -/
def normalize (path : Str) : Str :=
  if path = [] then ['.']
  else
    let isAbsolute := path.head? = some '/'
    let trailingSeparator := path.getLast? = some '/'
    let p := joinSegments (normalizeSegments (!decide isAbsolute) (path.splitOn '/'))
    let p := if p = [] ∧ ¬ isAbsolute then ['.'] else p
    let p := if p ≠ [] ∧ trailingSeparator then p ++ ['/'] else p
    if isAbsolute then '/' :: p else p

/-- Node's `path.posix.join(a, b)`: the non-empty arguments joined by `/`,
then normalised. -/
def posixJoin (a b : Str) : Str :=
  if a = [] ∧ b = [] then ['.']
  else if a = [] then normalize b
  else if b = [] then normalize a
  else normalize (a ++ '/' :: b)

/-- Node's `path.posix.resolve(path)`, as the segments of the absolute path it
returns. -/
def resolveSegments (cwd : List Str) (path : Str) : List Str :=
  normalizeSegments false
    (if path.head? = some '/' then path.splitOn '/' else cwd ++ path.splitOn '/')

/-- The two segment lists after their longest common prefix. -/
def dropCommonPrefix : List Str → List Str → List Str × List Str
  | a :: as, b :: bs => if a = b then dropCommonPrefix as bs else (a :: as, b :: bs)
  | as, bs => (as, bs)

/-- Node's `path.posix.relative(from, to)`: both paths are resolved, one `..`
is emitted per segment of `from` below the common ancestor, then the rest of
`to`. -/
def relative (cwd : List Str) (fromPath toPath : Str) : Str :=
  let p := dropCommonPrefix (resolveSegments cwd fromPath) (resolveSegments cwd toPath)
  joinSegments (p.1.map (fun _ => ['.', '.']) ++ p.2)

/-- Node's `path.posix.basename(path)`: the last non-empty segment, or the
empty string. -/
def basename (path : Str) : Str :=
  (((path.splitOn '/').filter (fun s => s ≠ [])).getLast?).getD []

/-! ## Numbers -/

/-- A JavaScript number or a `BigNumber`: a finite value, an infinity, or
`NaN`.  A `BigNumber` holds any decimal value; where a value becomes a
JavaScript number it is rounded to a double by `toDouble`. -/
inductive Num where
  | fin (q : ℚ)
  | posInf
  | negInf
  | nan
deriving DecidableEq

/-- JavaScript `x < c` for a finite constant `c`; false on `NaN`. -/
def Num.ltConst : Num → ℚ → Bool
  | .fin q, c => decide (q < c)
  | .negInf, _ => true
  | .posInf, _ => false
  | .nan, _ => false

/-- JavaScript `x / d` for a finite positive constant `d`. -/
def Num.divConst : Num → ℚ → Num
  | .fin q, d => .fin (q / d)
  | x, _ => x

/-- Nearest natural number to a non-negative rational, a tie going up. -/
def roundHalfUp (q : ℚ) : ℕ := ⌊q + 1 / 2⌋.toNat

/-- The function `Number.prototype.toFixed()` with no digits after the point
(the plain decimal form, which JavaScript prints for magnitudes below `1e21`). -/
def toFixed : Num → Str
  | .fin q => if q < 0 then '-' :: Nat.toDigits 10 (roundHalfUp (-q)) else Nat.toDigits 10 (roundHalfUp q)
  | .posInf => ['I', 'n', 'f', 'i', 'n', 'i', 't', 'y']
  | .negInf => ['-', 'I', 'n', 'f', 'i', 'n', 'i', 't', 'y']
  | .nan => ['N', 'a', 'N']

/-! ## `readableFilesize` -/

/-- The unit table of `readableFilesize`. -/
def units : List Str := [['B'], ['K', 'B'], ['M', 'B'], ['G', 'B'], ['T', 'B'], ['P', 'B']]

/-- The `for (const unit in units)` loop of `readableFilesize`: the first unit at
which the size is below 1000, dividing by 1000 at every unit passed.  When the
units run out `readableunit` still has its initial value `'B'`. -/
def readableLoop : List Str → Num → Str × Num
  | [], readablesize => (['B'], readablesize)
  | unit :: rest, readablesize =>
    if readablesize.ltConst 1000 then (unit, readablesize)
    else readableLoop rest (readablesize.divConst 1000)

/-- The function `readableFilesize(bytes)`. -/
def readableFilesize (bytes : Num) : Str :=
  let r := readableLoop units bytes
  toFixed r.2 ++ ' ' :: r.1

/-! ## `minRedundancy` -/

/-- The comparator `minRedundancy` passes to `min`. -/
def redundancyComparator (a b : SiaFile) : ℤ :=
  if a.redundancy > b.redundancy then 1 else -1

/-- Immutable's `min(comparator)`: a `reduce` without initial value that moves
to the next element `b` when `-comparator(b, a) > 0`; `undefined` (`none`) on an
empty collection. -/
def immutableMin {α : Type} (comparator : α → α → ℤ) : List α → Option α
  | [] => none
  | x :: xs => some (xs.foldl (fun a b => if 0 < -(comparator b a) then b else a) x)

/-- The function `minRedundancy(files)`; reading `.redundancy` of `undefined` throws. -/
def minRedundancy (files : List SiaFile) : Option ℚ :=
  (immutableMin redundancyComparator files).map (fun f => f.redundancy)

/-! ## `ls` -/

/-- The `type` of a listing entry. -/
inductive EntryType where
  | file
  | directory
deriving DecidableEq

/-- An entry of the listing `ls` returns. -/
structure ListEntry where
  size : Str
  name : Str
  siapath : Str
  available : Bool
  redundancy : ℚ
  uploadprogress : ℤ
  type : EntryType
deriving DecidableEq

/-- Immutable's `Map.has` on the association list of a map. -/
def mapHas (m : List (Str × ListEntry)) (k : Str) : Bool :=
  m.any (fun p => decide (p.1 = k))

/-- Immutable's `Map.set`: the value of an existing key is replaced, a new key
is added. -/
def mapSet (m : List (Str × ListEntry)) (k : Str) (v : ListEntry) : List (Str × ListEntry) :=
  if mapHas m k then m.map (fun p => if p.1 = k then (k, v) else p) else m ++ [(k, v)]

/-- The body of the `forEach` of `ls` for one file: the map after the file, or
`none` when `minRedundancy` throws. -/
def lsStep (cwd : List Str) (files : List SiaFile) (path : Str)
    (parsedFiles : List (Str × ListEntry)) (file : SiaFile) : Option (List (Str × ListEntry)) :=
  let relativePath := relative cwd path file.siapath
  let filename := basename relativePath
  if mapHas parsedFiles filename then some parsedFiles
  else
    let uploadprogress := ⌊file.uploadprogress⌋
    if '/' ∈ relativePath then
      let filename := (relativePath.splitOn '/').headD []
      let siapath := posixJoin path filename ++ ['/']
      let subfiles := files.filter (fun subfile => decide (siapath <:+: subfile.siapath))
      let totalFilesize : ℕ := subfiles.foldl (fun sum subfile => sum + subfile.filesize) 0
      (minRedundancy subfiles).map (fun redundancy =>
        mapSet parsedFiles filename
          { size := readableFilesize (.fin totalFilesize), name := filename, siapath := siapath,
            available := file.available, redundancy := redundancy,
            uploadprogress := uploadprogress, type := .directory })
    else
      some (mapSet parsedFiles filename
        { size := readableFilesize (.fin file.filesize), name := filename, siapath := file.siapath,
          available := file.available, redundancy := file.redundancy,
          uploadprogress := uploadprogress, type := .file })

/-- The function `ls(files, path)`.  The values of the map are sorted by name with a
stable sort; names are compared as JavaScript strings, by code units. -/
def ls (cwd : List Str) (files : List SiaFile) (path : Str) : Option (List ListEntry) :=
  ((files.filter (fun file => decide (path <:+: file.siapath))).foldlM
      (lsStep cwd files path) []).map
    (fun parsedFiles => (parsedFiles.map Prod.snd).insertionSort
      (fun a b => codeUnits a.name ≤ codeUnits b.name))

/-! ## `estimatedStorage` -/

/-- A host of the host database, with the four prices the estimate reads. -/
structure HostQuote where
  storageprice : ℚ
  uploadbandwidthprice : ℚ
  downloadbandwidthprice : ℚ
  contractprice : ℚ
deriving DecidableEq

def blockMonth : ℕ := 4320
def allowanceMonths : ℕ := 3
def allowanceHosts : ℕ := 24
def allowancePeriod : ℕ := blockMonth * allowanceMonths
def ncontracts : ℕ := 24
def baseRedundancy : ℕ := 6
def baseFee : ℕ := 240
def siafundRate : ℚ := 12 / 100

/-- BigNumber `plus`. -/
def Num.plus : Num → Num → Num
  | .fin a, .fin b => .fin (a + b)
  | .nan, _ => .nan
  | _, .nan => .nan
  | .posInf, .negInf => .nan
  | .negInf, .posInf => .nan
  | .posInf, _ => .posInf
  | _, .posInf => .posInf
  | .negInf, _ => .negInf
  | _, .negInf => .negInf

/-- BigNumber negation. -/
def Num.neg : Num → Num
  | .fin a => .fin (-a)
  | .posInf => .negInf
  | .negInf => .posInf
  | .nan => .nan

/-- BigNumber `minus`. -/
def Num.minus (a b : Num) : Num := a.plus b.neg

/-- BigNumber `times`. -/
def Num.times : Num → Num → Num
  | .fin a, .fin b => .fin (a * b)
  | .nan, _ => .nan
  | _, .nan => .nan
  | .fin a, .posInf => if a = 0 then .nan else if 0 < a then .posInf else .negInf
  | .fin a, .negInf => if a = 0 then .nan else if 0 < a then .negInf else .posInf
  | .posInf, .fin b => if b = 0 then .nan else if 0 < b then .posInf else .negInf
  | .negInf, .fin b => if b = 0 then .nan else if 0 < b then .negInf else .posInf
  | .posInf, .posInf => .posInf
  | .negInf, .negInf => .posInf
  | .posInf, .negInf => .negInf
  | .negInf, .posInf => .negInf

/-- Rounding of a quotient to `dp` decimal places, a tie going away from zero
(BigNumber's `DECIMAL_PLACES` and its default `ROUND_HALF_UP`). -/
def roundDP (dp : ℕ) (q : ℚ) : ℚ :=
  if q < 0 then -((roundHalfUp (-q * 10 ^ dp) : ℚ) / 10 ^ dp)
  else (roundHalfUp (q * 10 ^ dp) : ℚ) / 10 ^ dp

/-- BigNumber `dividedBy` under `DECIMAL_PLACES = dp`; a zero divisor counts as
positive zero. -/
def Num.dividedBy (dp : ℕ) : Num → Num → Num
  | .fin a, .fin b =>
    if b = 0 then (if a = 0 then .nan else if 0 < a then .posInf else .negInf)
    else .fin (roundDP dp (a / b))
  | .nan, _ => .nan
  | _, .nan => .nan
  | .fin _, _ => .fin 0
  | .posInf, .fin b => if 0 ≤ b then .posInf else .negInf
  | .negInf, .fin b => if 0 ≤ b then .negInf else .posInf
  | _, _ => .nan

/-- Modelled from the spec: `SiaAPI.siacoinsToHastings` belongs to the API
client, which is not among the sources; the smallest unit is 24 decimal places
below the display unit, so one siacoin is `10^24` hastings. -/
def siacoinsToHastings (siacoins : ℕ) : Num := .fin ((siacoins : ℚ) * 10 ^ 24)

/-- The function `avgHostMetric(hosts, metric)`; `metric` selects the field. -/
def avgHostMetric (dp : ℕ) (hosts : List HostQuote) (metric : HostQuote → ℚ) : Num :=
  (hosts.foldl (fun (sum : Num) host => sum.plus (.fin (metric host))) (.fin 0)).dividedBy dp
    (.fin (hosts.length : ℚ))

/-- The function `avgStorageCost(hosts, period, redundancy)`. -/
def avgStorageCost (dp : ℕ) (hosts : List HostQuote) (period redundancy : ℕ) : Num :=
  ((((avgHostMetric dp hosts (fun h => h.storageprice)).times (.fin (period : ℚ))).plus
      (avgHostMetric dp hosts (fun h => h.uploadbandwidthprice))).times
      (.fin (redundancy : ℚ))).plus
    (avgHostMetric dp hosts (fun h => h.downloadbandwidthprice))

/-- The greatest `k` with `10^k ≤ n` (0 for `n < 10`), by repeated division;
the first argument bounds the number of steps and `n` itself is enough. -/
def log10Floor : ℕ → ℕ → ℕ
  | 0, _ => 0
  | fuel + 1, n => if n < 10 then 0 else log10Floor fuel (n / 10) + 1

/-- The least `k` with `n ≤ 10^k`, by repeated division rounding up; the first
argument bounds the number of steps and `n` itself is enough. -/
def log10Ceil : ℕ → ℕ → ℕ
  | 0, _ => 0
  | fuel + 1, n => if n ≤ 1 then 0 else log10Ceil fuel ((n + 9) / 10) + 1

/-- The decimal exponent of a positive rational `a`: the `e` with
`10^e ≤ a < 10^(e+1)`. -/
def exponent10 (a : ℚ) : ℤ :=
  if 1 ≤ a then (log10Floor ⌊a⌋₊ ⌊a⌋₊ : ℤ) else -(log10Ceil ⌈1 / a⌉₊ ⌈1 / a⌉₊ : ℤ)

/-- A rational rounded to one significant decimal digit, a tie going away from
zero. -/
def roundSig1 (q : ℚ) : ℚ :=
  if q = 0 then 0
  else if q < 0 then -((roundHalfUp (-q / 10 ^ exponent10 (-q)) : ℚ) * 10 ^ exponent10 (-q))
  else (roundHalfUp (q / 10 ^ exponent10 q) : ℚ) * 10 ^ exponent10 q

/-- The greatest `k` with `2^k ≤ n` (0 for `n < 2`), by repeated halving; the
first argument bounds the number of steps and `n` itself is enough. -/
def log2Floor : ℕ → ℕ → ℕ
  | 0, _ => 0
  | fuel + 1, n => if n < 2 then 0 else log2Floor fuel (n / 2) + 1

/-- The least `k` with `n ≤ 2^k`, by repeated halving rounding up; the first
argument bounds the number of steps and `n` itself is enough. -/
def log2Ceil : ℕ → ℕ → ℕ
  | 0, _ => 0
  | fuel + 1, n => if n ≤ 1 then 0 else log2Ceil fuel ((n + 1) / 2) + 1

/-- The binary exponent of a positive rational `a`: the `e` with
`2^e ≤ a < 2^(e+1)`. -/
def exponent2 (a : ℚ) : ℤ :=
  if 1 ≤ a then (log2Floor ⌊a⌋₊ ⌊a⌋₊ : ℤ) else -(log2Ceil ⌈1 / a⌉₊ ⌈1 / a⌉₊ : ℤ)

/-- Nearest natural number to a non-negative rational, a tie going to the even
one. -/
def roundHalfEven (q : ℚ) : ℕ :=
  if q - (⌊q⌋₊ : ℚ) < 1 / 2 then ⌊q⌋₊
  else if 1 / 2 < q - (⌊q⌋₊ : ℚ) then ⌊q⌋₊ + 1
  else if ⌊q⌋₊ % 2 = 0 then ⌊q⌋₊ else ⌊q⌋₊ + 1

/-- The power `2^e` for an integer exponent. -/
def pow2 (e : ℤ) : ℚ :=
  if 0 ≤ e then (2 : ℚ) ^ e.toNat else 1 / (2 : ℚ) ^ (-e).toNat

/-- The double nearest to a rational: the value is rounded to 53 significant
bits, a tie going to the even significand.  The exponent is not bounded: the
overflow to an infinity from `2^1024` on and the coarser spacing of the
subnormal numbers below `2^-1022` are not modelled. -/
def toDouble (q : ℚ) : ℚ :=
  if q = 0 then 0
  else if q < 0 then
    -((roundHalfEven (-q / pow2 (exponent2 (-q) - 52)) : ℚ) * pow2 (exponent2 (-q) - 52))
  else (roundHalfEven (q / pow2 (exponent2 q - 52)) : ℚ) * pow2 (exponent2 q - 52)

/-- BigNumber `toNumber()`: the double nearest to the decimal value. -/
def toNumber : Num → Num
  | .fin q => .fin (toDouble q)
  | x => x

/-- JavaScript `ToNumber` on a numeric string, applied by `Math.max` to the
result of `toPrecision`: the double nearest to the value the string denotes. -/
def stringToNumber : Num → Num
  | .fin q => .fin (toDouble q)
  | x => x

/-- The value the string `x.toPrecision(1)` denotes. -/
def toPrecision1 : Num → Num
  | .fin q => .fin (roundSig1 q)
  | x => x

/-- JavaScript `Math.max(0, x)`. -/
def mathMax0 : Num → Num
  | .fin q => .fin (max 0 q)
  | .posInf => .posInf
  | .negInf => .fin 0
  | .nan => .nan

/-- The BigNumber `funds.minus(fee).dividedBy(avgStorage)` of `estimatedStorage`,
on which `toNumber()` is called.  `dp` is BigNumber's `DECIMAL_PLACES`,
configured outside these sources. -/
def storageQuotient (dp : ℕ) (funds : ℚ) (hosts : List HostQuote) : Num :=
  let validHosts := hosts.take 28
  let avgStorage := avgStorageCost dp validHosts allowancePeriod baseRedundancy
  let fee := siacoinsToHastings baseFee
  let fee := fee.plus ((avgHostMetric dp validHosts (fun h => h.contractprice)).times
    (.fin (ncontracts : ℚ)))
  let fee := fee.plus (((Num.fin funds).minus fee).times (.fin siafundRate))
  ((Num.fin funds).minus fee).dividedBy dp avgStorage

/-- The number `estimatedStorage(funds, hosts)` hands to `readableFilesize`:
`Math.max(0, quotient.toNumber().toPrecision(1))`. -/
def estimatedBytes (dp : ℕ) (funds : ℚ) (hosts : List HostQuote) : Num :=
  mathMax0 (stringToNumber (toPrecision1 (toNumber (storageQuotient dp funds hosts))))

/-- The function `estimatedStorage(funds, hosts)`. -/
def estimatedStorage (dp : ℕ) (funds : ℚ) (hosts : List HostQuote) : Str :=
  '~' :: readableFilesize (estimatedBytes dp funds hosts)

/-! ## `parseDownloads` and `parseUploads` -/

/-- A download as returned by `/renter/downloads`; `received` and `filesize` are
byte counts and `starttime` is taken as a number. -/
structure Download where
  siapath : Str
  destination : Str
  filesize : ℕ
  received : ℕ
  starttime : ℤ
deriving DecidableEq

/-- JavaScript `a / b` on finite numbers; a zero divisor counts as positive
zero. -/
def jsDiv (a b : ℚ) : Num :=
  if b = 0 then (if a = 0 then .nan else if 0 < a then .posInf else .negInf)
  else .fin (a / b)

/-- The result of a JavaScript arithmetic operation: the double nearest to the
exact value. -/
def jsRound : Num → Num
  | .fin q => .fin (toDouble q)
  | x => x

/-- JavaScript `Math.floor`. -/
def mathFloor : Num → Num
  | .fin q => .fin (⌊q⌋ : ℚ)
  | x => x

/-- The `type` of a transfer entry. -/
inductive TransferType where
  | download
  | upload
deriving DecidableEq

/-- The `status` of a download entry. -/
inductive DownloadStatus where
  | completed
  | downloading
deriving DecidableEq

/-- An entry of the list `parseDownloads` returns. -/
structure DownloadEntry where
  status : DownloadStatus
  siapath : Str
  name : Str
  progress : Num
  destination : Str
  type : TransferType
  starttime : ℤ
deriving DecidableEq

/-- The object `parseDownloads` maps a download to.  In `progress` the quotient
`received / filesize` and its product with 100 are rounded to doubles.  The
`status` test is written on the exact quotient: for sizes below `2^53` its floor
is 1 exactly when that of the double quotient is. -/
def downloadEntry (download : Download) : DownloadEntry :=
  { status :=
      if mathFloor (jsDiv download.received download.filesize) = .fin 1 then .completed
      else .downloading,
    siapath := download.siapath,
    name := basename download.siapath,
    progress := mathFloor
      (jsRound ((jsRound (jsDiv download.received download.filesize)).times (.fin 100))),
    destination := download.destination,
    type := .download,
    starttime := download.starttime }

/-- The function `parseDownloads(downloads)`; `sortBy` is a stable sort on the key
`-starttime`. -/
def parseDownloads (downloads : List Download) : List DownloadEntry :=
  (downloads.map downloadEntry).insertionSort (fun a b => -a.starttime ≤ -b.starttime)

/-- The `status` of an upload entry. -/
inductive UploadStatus where
  | uploading
  | boostingRedundancy
deriving DecidableEq

/-- An entry of the list `parseUploads` returns. -/
structure UploadEntry where
  status : UploadStatus
  siapath : Str
  name : Str
  progress : ℤ
  type : TransferType
deriving DecidableEq

/-- The object `parseUploads` maps a file to. -/
def uploadEntry (upload : SiaFile) : UploadEntry :=
  { status := if upload.redundancy < 1 then .uploading else .boostingRedundancy,
    siapath := upload.siapath,
    name := basename upload.siapath,
    progress := ⌊upload.uploadprogress⌋,
    type := .upload }

/-- The function `parseUploads(files)`: two filters, the map, then a stable sort by
name (compared as JavaScript strings, by code units) followed by a stable sort
on the key `-progress`. -/
def parseUploads (files : List SiaFile) : List UploadEntry :=
  (((((files.filter (fun file => decide (file.redundancy < 5 / 2))).filter
      (fun file => decide (file.uploadprogress < 100))).map uploadEntry).insertionSort
      (fun a b => codeUnits a.name ≤ codeUnits b.name)).insertionSort
    (fun a b => -a.progress ≤ -b.progress))

end SiaUI

namespace SiaUI

/-! ## The storage estimate in closed form

Every quotient is rounded to `dp` decimal places (half away from zero), as the
decimal arithmetic of the estimate rounds it: this is the formula of the
specification with its divisions replaced by rounded ones. -/

/-- The sampled hosts: the first `min(28, number of hosts)` in input order. -/
def specSample (hosts : List HostQuote) : List HostQuote :=
  hosts.take (min 28 hosts.length)

/-- The mean of a price over the sample, rounded to `dp` decimal places. -/
def specMean (dp : ℕ) (hosts : List HostQuote) (metric : HostQuote → ℚ) : ℚ :=
  roundDP dp (((specSample hosts).map metric).sum / ((specSample hosts).length : ℚ))

/-- The sentence `avgStorageCost = ((mean(storageprice) * 12960) + mean(uploadbandwidthprice)) * 6 +
mean(downloadbandwidthprice)`, over the rounded means. -/
def specAvgStorageCost (dp : ℕ) (hosts : List HostQuote) : ℚ :=
  ((specMean dp hosts (fun h => h.storageprice) * 12960)
      + specMean dp hosts (fun h => h.uploadbandwidthprice)) * 6
    + specMean dp hosts (fun h => h.downloadbandwidthprice)

/-- The sentence `f0 = 240 siacoins in hastings + mean(contractprice) * 24`, over
the rounded mean. -/
def specBaseFee (dp : ℕ) (hosts : List HostQuote) : ℚ :=
  240 * 10 ^ 24 + specMean dp hosts (fun h => h.contractprice) * 24

/-- The sentence `fee = f0 + (funds - f0) * 0.12`. -/
def specFee (dp : ℕ) (funds : ℚ) (hosts : List HostQuote) : ℚ :=
  specBaseFee dp hosts + (funds - specBaseFee dp hosts) * (12 / 100)

/-- The quotient `(funds - fee) / avgStorageCost` rounded to `dp` decimal places,
clamped below at 0. -/
def specBytes (dp : ℕ) (funds : ℚ) (hosts : List HostQuote) : ℚ :=
  max 0 (roundDP dp ((funds - specFee dp funds hosts) / specAvgStorageCost dp hosts))

/-! ## The storage estimate as the specification words it

All divisions are exact. -/

/-- The mean of a price over the sample. -/
def exactMean (hosts : List HostQuote) (metric : HostQuote → ℚ) : ℚ :=
  ((specSample hosts).map metric).sum / ((specSample hosts).length : ℚ)

/-- The sentence `avgStorageCost = ((mean(storageprice) * 12960) + mean(uploadbandwidthprice)) * 6 +
mean(downloadbandwidthprice)`. -/
def exactAvgStorageCost (hosts : List HostQuote) : ℚ :=
  ((exactMean hosts (fun h => h.storageprice) * 12960)
      + exactMean hosts (fun h => h.uploadbandwidthprice)) * 6
    + exactMean hosts (fun h => h.downloadbandwidthprice)

/-- The sentence `f0 = 240 siacoins in hastings + mean(contractprice) * 24`. -/
def exactBaseFee (hosts : List HostQuote) : ℚ :=
  240 * 10 ^ 24 + exactMean hosts (fun h => h.contractprice) * 24

/-- The sentence `fee = f0 + (funds - f0) * 0.12`. -/
def exactFee (funds : ℚ) (hosts : List HostQuote) : ℚ :=
  exactBaseFee hosts + (funds - exactBaseFee hosts) * (12 / 100)

/-- The byte count `(funds - fee) / avgStorageCost`, clamped below at 0. -/
def exactBytes (funds : ℚ) (hosts : List HostQuote) : ℚ :=
  max 0 ((funds - exactFee funds hosts) / exactAvgStorageCost hosts)

/-! ## The order of the upload list as the specification words it -/

/-- Descending progress with ascending name as the tie-break, names compared as
JavaScript strings: `e` may stand before `e'`. -/
def uploadOrder (e e' : UploadEntry) : Prop :=
  e.progress > e'.progress ∨
    (e.progress = e'.progress ∧ codeUnits e.name ≤ codeUnits e'.name)

/-! ## Invariants of the map built by `ls` -/

/-- The files whose siapath contains `siapath` as a substring: the `subfiles` that
`ls` computes for a directory. -/
def subfilesOf (files : List SiaFile) (siapath : Str) : List SiaFile :=
  files.filter (fun subfile => decide (siapath <:+: subfile.siapath))

/-- What `ls` guarantees of an entry: a directory entry has the joined siapath,
the formatted total size of its `subfiles` and their minimum redundancy. -/
def EntryOk (files : List SiaFile) (path : Str) (e : ListEntry) : Prop :=
  e.type = .directory →
    e.siapath = posixJoin path e.name ++ ['/'] ∧
    e.size = readableFilesize
      (.fin (((subfilesOf files e.siapath).map (fun f => f.filesize)).sum : ℕ)) ∧
    minRedundancy (subfilesOf files e.siapath) = some e.redundancy

/-- The invariant of `parsedFiles`: keys are distinct, every entry is stored under
its name and satisfies `EntryOk`. -/
def MapOk (files : List SiaFile) (path : Str) (m : List (Str × ListEntry)) : Prop :=
  (m.map Prod.fst).Nodup ∧ ∀ p ∈ m, p.2.name = p.1 ∧ EntryOk files path p.2

end SiaUI

namespace SiaUI

/-! ## Example data -/

/-- A file record with only a path; every other field is zero. -/
def fileAt (siapath : Str) : SiaFile :=
  { siapath := siapath, filesize := 0, redundancy := 0, uploadprogress := 0, available := true }

def fileA : SiaFile := fileAt ['a']
def fileB : SiaFile := fileAt ['b']
def fileC : SiaFile := fileAt ['c']
def fileD : SiaFile := fileAt ['d']
def fileE : SiaFile := fileAt ['e']

/-- The view `[A, B, C, D, E]`. -/
def viewAE : List SiaFile := [fileA, fileB, fileC, fileD, fileE]

/-- A host asking 2e10 hastings per byte and block, 1e13 per byte up and down and
one siacoin per contract. -/
def exampleHost : HostQuote :=
  { storageprice := 2 * 10 ^ 10, uploadbandwidthprice := 10 ^ 13,
    downloadbandwidthprice := 10 ^ 13, contractprice := 10 ^ 24 }

/-- A host asking 1e13 hastings per byte downloaded and nothing else. -/
def downloadOnlyHost : HostQuote :=
  { storageprice := 0, uploadbandwidthprice := 0,
    downloadbandwidthprice := 10 ^ 13, contractprice := 0 }

/-- Funds for which, with `downloadOnlyHost`, the exact quotient is
`249999999999.9999999999992` bytes, just below the double `2.5e11`. -/
def nearTieFunds : ℚ := 242840909090909090909090900

/-- Three files with redundancies 2, 1 and 3. -/
def redundancyExample : List SiaFile :=
  [{ fileA with redundancy := 2 }, { fileB with redundancy := 1 }, { fileC with redundancy := 3 }]

/-- The working directory `/opt/Sia-UI` of the examples. -/
def exampleCwd : List Str := [['o', 'p', 't'], ['S', 'i', 'a', '-', 'U', 'I']]

/-- The files `b/x` (1 byte, redundancy 2) and `c/b/y` (2 bytes, redundancy 1). -/
def nestedFiles : List SiaFile :=
  [{ siapath := ['b', '/', 'x'], filesize := 1, redundancy := 2, uploadprogress := 10,
     available := true },
   { siapath := ['c', '/', 'b', '/', 'y'], filesize := 2, redundancy := 1, uploadprogress := 50,
     available := false }]

/-- The second file of `nestedFiles`, `c/b/y`. -/
def nestedFileCBY : SiaFile :=
  { siapath := ['c', '/', 'b', '/', 'y'], filesize := 2, redundancy := 1, uploadprogress := 50,
    available := false }

/-- The directory entry `b` of the listing of `nestedFiles` at the root. -/
def nestedEntryB : ListEntry :=
  { size := ['3', ' ', 'B'], name := ['b'], siapath := ['b', '/'], available := true,
    redundancy := 1, uploadprogress := 10, type := .directory }

/-- The directory entry `c` of the listing of `nestedFiles` at the root. -/
def nestedEntryC : ListEntry :=
  { size := ['2', ' ', 'B'], name := ['c'], siapath := ['c', '/'], available := false,
    redundancy := 1, uploadprogress := 50, type := .directory }

/-- The file `x` followed by the file `b/x`. -/
def shadowedFiles : List SiaFile :=
  [{ siapath := ['x'], filesize := 5, redundancy := 2, uploadprogress := 50, available := true },
   { siapath := ['b', '/', 'x'], filesize := 7, redundancy := 1, uploadprogress := 20,
     available := false }]

/-- The file entry `x` of the listing of `shadowedFiles` at the root. -/
def shadowEntryX : ListEntry :=
  { size := ['5', ' ', 'B'], name := ['x'], siapath := ['x'], available := true,
    redundancy := 2, uploadprogress := 50, type := .file }

/-- The files `a/c` and `z/a/b`: the second contains `a/` without lying under it. -/
def strayFiles : List SiaFile :=
  [{ siapath := ['a', '/', 'c'], filesize := 5, redundancy := 2, uploadprogress := 50,
     available := true },
   { siapath := ['z', '/', 'a', '/', 'b'], filesize := 7, redundancy := 1, uploadprogress := 20,
     available := false }]

/-- The files `d/x` (available, progress 10) and `d/y` (unavailable, progress 50). -/
def siblingFiles : List SiaFile :=
  [{ siapath := ['d', '/', 'x'], filesize := 5, redundancy := 2, uploadprogress := 10,
     available := true },
   { siapath := ['d', '/', 'y'], filesize := 7, redundancy := 1, uploadprogress := 50,
     available := false }]

/-- The directory entry `d` of the listing of `siblingFiles` at the root. -/
def siblingEntryD : ListEntry :=
  { size := ['1', '2', ' ', 'B'], name := ['d'], siapath := ['d', '/'], available := false,
    redundancy := 1, uploadprogress := 50, type := .directory }

/-- A download with 29 of 100 bytes received. -/
def partDownload : Download :=
  { siapath := ['p'], destination := ['/', 't', 'm', 'p', '/', 'p'], filesize := 100,
    received := 29, starttime := 0 }

/-- A download whose `received` is twice its `filesize`. -/
def overshootDownload : Download :=
  { siapath := ['f'], destination := ['/', 't', 'm', 'p', '/', 'f'], filesize := 1,
    received := 2, starttime := 0 }

/-- A download that is half done. -/
def halfDownload : Download :=
  { siapath := ['g'], destination := ['/', 't', 'm', 'p', '/', 'g'], filesize := 2,
    received := 1, starttime := 5 }

/-- Four files: `b` and `a` at progress 50, `c` at progress 70.5, all being
uploaded, and `d`, which is fully uploaded. -/
def uploadFiles : List SiaFile :=
  [{ siapath := ['b'], filesize := 1, redundancy := 1 / 2, uploadprogress := 50,
     available := false },
   { siapath := ['c'], filesize := 1, redundancy := 2, uploadprogress := 141 / 2,
     available := true },
   { siapath := ['a'], filesize := 1, redundancy := 1, uploadprogress := 50,
     available := true },
   { siapath := ['d'], filesize := 1, redundancy := 3, uploadprogress := 100,
     available := true }]

/-- A host all of whose prices are zero. -/
def zeroHost : HostQuote :=
  { storageprice := 0, uploadbandwidthprice := 0, downloadbandwidthprice := 0,
    contractprice := 0 }

/-- Two files whose names are the single characters `U+E000` and `U+1F600`. -/
def astralFiles : List SiaFile :=
  [fileAt [Char.ofNat 57344], fileAt [Char.ofNat 128512]]

/-- Two uploads of equal progress named `U+E000` and `U+1F600`. -/
def astralUploads : List SiaFile :=
  [{ siapath := [Char.ofNat 57344], filesize := 1, redundancy := 1, uploadprogress := 50,
     available := true },
   { siapath := [Char.ofNat 128512], filesize := 1, redundancy := 1, uploadprogress := 50,
     available := true }]

/-- A record with the siapath of `fileB` that is not the record of the view. -/
def staleB : SiaFile := { fileB with filesize := 1 }

end SiaUI

/-! # Theorems -/

namespace SiaUI

/-! ## Collections -/

theorem toOrderedSet_go {α : Type} [DecidableEq α] (xs acc : List α) (h : (acc ++ xs).Nodup) :
    xs.foldl (fun acc x => if x ∈ acc then acc else acc ++ [x]) acc = acc ++ xs := by
  induction xs generalizing acc with
  | nil => simp
  | cons x xs ih =>
    have hx : x ∉ acc := by
      intro hmem
      rw [List.nodup_append] at h
      exact h.2.2 hmem (List.mem_cons_self x xs)
    simp only [List.foldl_cons, hx, if_false]
    rw [ih (acc ++ [x]) (by simpa using h)]
    simp

theorem toOrderedSet_of_nodup {α : Type} [DecidableEq α] (xs : List α) (h : xs.Nodup) :
    toOrderedSet xs = xs := by
  have := toOrderedSet_go xs [] (by simpa using h)
  simpa [toOrderedSet] using this

theorem indexOf_some_mem (xs : List Str) (x : Str) (h : x ∈ xs) :
    indexOf xs (some x) = (List.findIdx (fun y => decide (y = x)) xs : ℤ) := by
  simp [indexOf, h]

theorem slice_window {α : Type} (xs : List α) (s e : ℕ) (hs : s < xs.length) (he : e < xs.length) :
    slice xs (s : ℤ) ((e : ℤ) + 1) = (xs.drop s).take (e + 1 - s) := by
  have h1 : resolveIndex (s : ℤ) xs.length = s := by
    unfold resolveIndex
    have : ¬ ((s : ℤ) < 0) := by omega
    rw [if_neg this]
    omega
  have h2 : resolveIndex ((e : ℤ) + 1) xs.length = e + 1 := by
    unfold resolveIndex
    have : ¬ ((e : ℤ) + 1 < 0) := by omega
    rw [if_neg this]
    omega
  unfold slice
  rw [h1, h2]

theorem mem_drop_take {α : Type} (xs : List α) (s e : ℕ) (x : α) :
    x ∈ (xs.drop s).take (e + 1 - s) ↔ ∃ i : ℕ, xs[i]? = some x ∧ s ≤ i ∧ i ≤ e := by
  rw [List.mem_iff_getElem?]
  constructor
  · rintro ⟨n, hn⟩
    rw [List.getElem?_take] at hn
    split at hn
    · rw [List.getElem?_drop] at hn
      exact ⟨s + n, hn, by omega, by omega⟩
    · simp at hn
  · rintro ⟨i, hi, h1, h2⟩
    refine ⟨i - s, ?_⟩
    rw [List.getElem?_take, if_pos (by omega), List.getElem?_drop]
    have : s + (i - s) = i := by omega
    rw [this]
    exact hi

theorem indexOf_map_of_nodup {α β : Type} [DecidableEq α] [DecidableEq β] (f : α → β)
    (xs : List α) (h : (xs.map f).Nodup) (x : α) (hx : x ∈ xs) :
    List.indexOf (f x) (xs.map f) = List.indexOf x xs := by
  induction xs with
  | nil => simp at hx
  | cons y ys ih =>
    simp only [List.map_cons, List.nodup_cons] at h
    by_cases hxy : y = x
    · subst hxy
      simp
    · have hmem : x ∈ ys := by
        rcases List.mem_cons.1 hx with h' | h'
        · exact absurd h'.symm hxy
        · exact h'
      have hf : f y ≠ f x := by
        intro heq
        exact h.1 (heq ▸ List.mem_map_of_mem f hmem)
      rw [List.map_cons, List.indexOf_cons_ne _ hf, List.indexOf_cons_ne _ hxy, ih h.2 hmem]

/-! ## `rangeSelect` -/

theorem rangeSelect_eq_window (file : SiaFile) (files selectedFiles : List SiaFile)
    (first last : SiaFile)
    (hview : (files.map (fun f => f.siapath)).Nodup)
    (hfile : file ∈ files)
    (hsel : (selectedFiles.map (fun f => f.siapath)).Nodup)
    (hfirst : selectedFiles.head? = some first) (hlast : selectedFiles.getLast? = some last)
    (hfv : first ∈ files) (hlv : last ∈ files) :
    rangeSelect file files selectedFiles =
      (files.drop (if List.indexOf first files ≤ List.indexOf file files
          then List.indexOf first files else List.indexOf file files)).take
        ((if List.indexOf first files ≤ List.indexOf file files
          then List.indexOf file files else List.indexOf last files) + 1 -
         (if List.indexOf first files ≤ List.indexOf file files
          then List.indexOf first files else List.indexOf file files)) := by
  have hnd : files.Nodup := List.Nodup.of_map _ hview
  have hs : List.indexOf first files < files.length := List.indexOf_lt_length.2 hfv
  have he : List.indexOf file files < files.length := List.indexOf_lt_length.2 hfile
  have hl : List.indexOf last files < files.length := List.indexOf_lt_length.2 hlv
  have hmem : ∀ x ∈ files, indexOf (files.map (fun f => f.siapath)) (some x.siapath)
      = (List.indexOf x files : ℤ) := by
    intro x hx
    have h1 := indexOf_some_mem _ _ (List.mem_map_of_mem (fun f : SiaFile => f.siapath) hx)
    have h2 : List.findIdx (fun y => decide (y = x.siapath)) (files.map (fun f => f.siapath))
        = List.indexOf x files :=
      indexOf_map_of_nodup (fun f : SiaFile => f.siapath) files hview x hx
    simp only at h1
    rw [h1, h2]
  have hhead : (toOrderedSet (selectedFiles.map (fun f => f.siapath))).head?
      = some first.siapath := by
    rw [toOrderedSet_of_nodup _ hsel, List.head?_map, hfirst]; rfl
  have hlast' : (toOrderedSet (selectedFiles.map (fun f => f.siapath))).getLast?
      = some last.siapath := by
    rw [toOrderedSet_of_nodup _ hsel, List.getLast?_map, hlast]; rfl
  unfold rangeSelect
  simp only [hhead, hlast', hmem first hfv, hmem file hfile, hmem last hlv]
  by_cases hcmp : List.indexOf first files ≤ List.indexOf file files
  · have hgt : ¬ ((List.indexOf first files : ℤ) > (List.indexOf file files : ℤ)) := by omega
    simp only [hgt, if_false, hcmp, if_true]
    rw [slice_window files _ _ hs he]
    exact toOrderedSet_of_nodup _
      (List.Nodup.sublist ((List.take_sublist _ _).trans (List.drop_sublist _ _)) hnd)
  · have hgt : (List.indexOf first files : ℤ) > (List.indexOf file files : ℤ) := by omega
    simp only [hgt, if_true, hcmp, if_false]
    rw [slice_window files _ _ he hl]
    exact toOrderedSet_of_nodup _
      (List.Nodup.sublist ((List.take_sublist _ _).trans (List.drop_sublist _ _)) hnd)

/-- C1 (amended): for a view with pairwise distinct siapaths, a target in the
view and a previous selection with pairwise distinct siapaths whose first and
last elements are in the view, `rangeSelect` returns a duplicate-free collection
holding exactly the view elements with index in `[low, high]`, where
`(low, high)` is `(start, end)` when `start ≤ end` and `(end, index of last)`
otherwise. -/
theorem rangeSelect_window (file : SiaFile) (files selectedFiles : List SiaFile)
    (first last : SiaFile)
    (hview : (files.map (fun f => f.siapath)).Nodup)
    (hfile : file ∈ files)
    (hsel : (selectedFiles.map (fun f => f.siapath)).Nodup)
    (hfirst : selectedFiles.head? = some first) (hlast : selectedFiles.getLast? = some last)
    (hfv : first ∈ files) (hlv : last ∈ files) :
    (rangeSelect file files selectedFiles).Nodup ∧
    ∀ x, x ∈ rangeSelect file files selectedFiles ↔
      ∃ i : ℕ, files[i]? = some x ∧
        (if List.indexOf first files ≤ List.indexOf file files
          then List.indexOf first files else List.indexOf file files) ≤ i ∧
        i ≤ (if List.indexOf first files ≤ List.indexOf file files
          then List.indexOf file files else List.indexOf last files) := by
  rw [rangeSelect_eq_window file files selectedFiles first last hview hfile hsel hfirst hlast
    hfv hlv]
  refine ⟨?_, fun x => mem_drop_take files _ _ x⟩
  exact List.Nodup.sublist ((List.take_sublist _ _).trans (List.drop_sublist _ _))
    (List.Nodup.of_map _ hview)

/-- C1 (witness): the two examples of the range selection, `{B}` then `D` giving
`{B, C, D}` and `{B, D}` then `A` giving `{A, B, C, D}`. -/
theorem rangeSelect_window_witness :
    (rangeSelect fileD viewAE [fileB] = [fileB, fileC, fileD] ∧
      rangeSelect fileA viewAE [fileB, fileD] = [fileA, fileB, fileC, fileD]) ∧
    ((rangeSelect fileA viewAE [fileB, fileD]).Nodup ∧
    ∀ x, x ∈ rangeSelect fileA viewAE [fileB, fileD] ↔
      ∃ i : ℕ, viewAE[i]? = some x ∧
        (if List.indexOf fileB viewAE ≤ List.indexOf fileA viewAE
          then List.indexOf fileB viewAE else List.indexOf fileA viewAE) ≤ i ∧
        i ≤ (if List.indexOf fileB viewAE ≤ List.indexOf fileA viewAE
          then List.indexOf fileA viewAE else List.indexOf fileD viewAE)) :=
  ⟨⟨by decide, by decide⟩,
    rangeSelect_window fileA viewAE [fileB, fileD] fileB fileD (by decide) (by decide)
      (by decide) rfl rfl (by decide) (by decide)⟩

/-- C1 (counterexample): the selection `[D, B', C, B]`, where `B'` is another
record with the siapath of `B`, has its first and last elements in the view, yet
with target `A` the result holds `C`, whose index 2 is above the index 1 of the
last selected element `B`. -/
theorem rangeSelect_window_counterexample :
    (viewAE.map (fun f => f.siapath)).Nodup ∧ fileA ∈ viewAE ∧
    [fileD, staleB, fileC, fileB].Nodup ∧
    [fileD, staleB, fileC, fileB].head? = some fileD ∧
    [fileD, staleB, fileC, fileB].getLast? = some fileB ∧
    fileD ∈ viewAE ∧ fileB ∈ viewAE ∧
    rangeSelect fileA viewAE [fileD, staleB, fileC, fileB] = [fileA, fileB, fileC] ∧
    ¬ (∀ x, x ∈ rangeSelect fileA viewAE [fileD, staleB, fileC, fileB] ↔
      ∃ i : ℕ, viewAE[i]? = some x ∧
        (if List.indexOf fileD viewAE ≤ List.indexOf fileA viewAE
          then List.indexOf fileD viewAE else List.indexOf fileA viewAE) ≤ i ∧
        i ≤ (if List.indexOf fileD viewAE ≤ List.indexOf fileA viewAE
          then List.indexOf fileA viewAE else List.indexOf fileB viewAE)) := by
  refine ⟨by decide, by decide, by decide, rfl, rfl, by decide, by decide, by decide, ?_⟩
  intro h
  obtain ⟨i, hi, -, h2⟩ := (h fileC).1 (by decide)
  have hhigh : (if List.indexOf fileD viewAE ≤ List.indexOf fileA viewAE
      then List.indexOf fileA viewAE else List.indexOf fileB viewAE) = 1 := by decide
  rw [hhigh] at h2
  interval_cases i
  · exact absurd hi (by decide)
  · exact absurd hi (by decide)

/-! ## `minRedundancy` -/

theorem minStep_eq (a b : SiaFile) :
    (if 0 < -(redundancyComparator b a) then b else a)
      = if b.redundancy ≤ a.redundancy then b else a := by
  unfold redundancyComparator
  by_cases h : b.redundancy > a.redundancy
  · have h' : ¬ b.redundancy ≤ a.redundancy := not_le.2 h
    simp [h, h']
  · have h' : b.redundancy ≤ a.redundancy := not_lt.1 h
    simp [h, h']

theorem minFold_le (xs : List SiaFile) (x : SiaFile) :
    xs.foldl (fun a b => if b.redundancy ≤ a.redundancy then b else a) x ∈ x :: xs ∧
    ∀ f ∈ x :: xs,
      (xs.foldl (fun a b => if b.redundancy ≤ a.redundancy then b else a) x).redundancy
        ≤ f.redundancy := by
  induction xs generalizing x with
  | nil => simp
  | cons y ys ih =>
    simp only [List.foldl_cons]
    by_cases h : y.redundancy ≤ x.redundancy
    · simp only [h, if_true]
      obtain ⟨h1, h2⟩ := ih y
      refine ⟨List.mem_cons_of_mem _ h1, ?_⟩
      intro f hf
      rcases List.mem_cons.1 hf with rfl | hf
      · exact le_trans (h2 y (List.mem_cons_self _ _)) h
      · exact h2 f hf
    · simp only [h, if_false]
      obtain ⟨h1, h2⟩ := ih x
      constructor
      · rcases List.mem_cons.1 h1 with h1 | h1
        · rw [h1]; exact List.mem_cons_self _ _
        · exact List.mem_cons_of_mem _ (List.mem_cons_of_mem _ h1)
      · intro f hf
        rcases List.mem_cons.1 hf with rfl | hf
        · exact h2 _ (List.mem_cons_self _ _)
        · rcases List.mem_cons.1 hf with rfl | hf
          · exact le_trans (h2 x (List.mem_cons_self _ _)) (le_of_lt (not_le.1 h))
          · exact h2 f (List.mem_cons_of_mem _ hf)

theorem minFold_spec (xs : List SiaFile) (x : SiaFile) :
    xs.foldl (fun a b => if 0 < -(redundancyComparator b a) then b else a) x ∈ x :: xs ∧
    ∀ f ∈ x :: xs,
      (xs.foldl (fun a b => if 0 < -(redundancyComparator b a) then b else a) x).redundancy
        ≤ f.redundancy := by
  have hf : (fun a b : SiaFile => if 0 < -(redundancyComparator b a) then b else a)
      = (fun a b => if b.redundancy ≤ a.redundancy then b else a) := by
    funext a b
    exact minStep_eq a b
  rw [hf]
  exact minFold_le xs x

theorem minRedundancy_spec (files : List SiaFile) (h : files ≠ []) :
    ∃ m, minRedundancy files = some m ∧ (∃ f ∈ files, f.redundancy = m) ∧
      ∀ f ∈ files, m ≤ f.redundancy := by
  cases files with
  | nil => exact absurd rfl h
  | cons x xs =>
    obtain ⟨h1, h2⟩ := minFold_spec xs x
    exact ⟨_, rfl, ⟨_, h1, rfl⟩, h2⟩

theorem minRedundancy_eq_none (files : List SiaFile) :
    minRedundancy files = none ↔ files = [] := by
  cases files with
  | nil => simp [minRedundancy, immutableMin]
  | cons x xs => simp [minRedundancy, immutableMin]

/-- C9: on a non-empty list `minRedundancy` returns the redundancy of one of the
files, which is at most the redundancy of every file of the list; on a singleton
`[r]` it returns `r.redundancy`. -/
theorem minRedundancy_is_minimum (files : List SiaFile) (h : files ≠ []) :
    ∃ m, minRedundancy files = some m ∧ (∃ f ∈ files, f.redundancy = m) ∧
      (∀ f ∈ files, m ≤ f.redundancy) ∧
      ∀ r : SiaFile, minRedundancy [r] = some r.redundancy := by
  obtain ⟨m, h1, h2, h3⟩ := minRedundancy_spec files h
  exact ⟨m, h1, h2, h3, fun r => rfl⟩

/-- C9 (witness): the minimum over redundancies 2, 1, 3. -/
theorem minRedundancy_is_minimum_witness :
    redundancyExample ≠ [] ∧
    ∃ m, minRedundancy redundancyExample = some m ∧
      (∃ f ∈ redundancyExample, f.redundancy = m) ∧
      (∀ f ∈ redundancyExample, m ≤ f.redundancy) ∧
      ∀ r : SiaFile, minRedundancy [r] = some r.redundancy :=
  ⟨by decide, minRedundancy_is_minimum redundancyExample (by decide)⟩

/-! ## `ls` -/

theorem mapHas_iff (m : List (Str × ListEntry)) (k : Str) :
    mapHas m k = true ↔ k ∈ m.map Prod.fst := by
  simp only [mapHas, List.any_eq_true, decide_eq_true_eq, List.mem_map]

theorem mapSet_keys (m : List (Str × ListEntry)) (k : Str) (v : ListEntry) :
    (mapSet m k v).map Prod.fst
      = if mapHas m k then m.map Prod.fst else m.map Prod.fst ++ [k] := by
  unfold mapSet
  by_cases h : mapHas m k = true
  · rw [if_pos h, if_pos h, List.map_map]
    apply List.map_congr_left
    intro p _
    by_cases hp : p.1 = k
    · simp [hp]
    · simp [hp]
  · simp [h]

theorem mapSet_keys_nodup (m : List (Str × ListEntry)) (k : Str) (v : ListEntry)
    (h : (m.map Prod.fst).Nodup) : ((mapSet m k v).map Prod.fst).Nodup := by
  rw [mapSet_keys]
  by_cases hk : mapHas m k = true
  · simpa [hk] using h
  · have hnot : k ∉ m.map Prod.fst := fun hmem => hk ((mapHas_iff m k).2 hmem)
    simp only [hk, Bool.false_eq_true, if_false]
    rw [List.nodup_append]
    refine ⟨h, List.nodup_singleton k, ?_⟩
    intro a ha hb
    rw [List.mem_singleton] at hb
    exact hnot (hb ▸ ha)

theorem mem_mapSet (m : List (Str × ListEntry)) (k : Str) (v : ListEntry)
    (p : Str × ListEntry) (hp : p ∈ mapSet m k v) : p = (k, v) ∨ p ∈ m := by
  unfold mapSet at hp
  by_cases h : mapHas m k = true
  · simp only [h, if_true, List.mem_map] at hp
    obtain ⟨q, hq, rfl⟩ := hp
    by_cases hqk : q.1 = k
    · left; simp [hqk]
    · right; simpa [hqk] using hq
  · simp only [h, Bool.false_eq_true, if_false, List.mem_append, List.mem_singleton] at hp
    rcases hp with hp | hp
    · exact Or.inr hp
    · exact Or.inl hp

theorem mapOk_set (files : List SiaFile) (path : Str) (m : List (Str × ListEntry))
    (k : Str) (v : ListEntry) (hm : MapOk files path m) (hname : v.name = k)
    (hv : EntryOk files path v) : MapOk files path (mapSet m k v) := by
  refine ⟨mapSet_keys_nodup m k v hm.1, ?_⟩
  intro p hp
  rcases mem_mapSet m k v p hp with rfl | hp
  · exact ⟨hname, hv⟩
  · exact hm.2 p hp

theorem foldl_filesize (l : List SiaFile) :
    l.foldl (fun sum subfile => sum + subfile.filesize) 0
      = (l.map (fun f => f.filesize)).sum := by
  rw [List.sum_eq_foldl, List.foldl_map]

theorem lsStep_ok (cwd : List Str) (files : List SiaFile) (path : Str)
    (m m' : List (Str × ListEntry)) (file : SiaFile) (hm : MapOk files path m)
    (h : lsStep cwd files path m file = some m') : MapOk files path m' := by
  unfold lsStep at h
  simp only at h
  split at h
  · cases h
    exact hm
  · split at h
    · rw [Option.map_eq_some'] at h
      obtain ⟨r, hr, rfl⟩ := h
      refine mapOk_set files path m _ _ hm ?_ ?_
      · rfl
      · intro _
        refine ⟨rfl, ?_, hr⟩
        simp only [subfilesOf, foldl_filesize]
    · cases h
      refine mapOk_set files path m _ _ hm ?_ ?_
      · rfl
      · intro hdir
        cases hdir

theorem foldlM_invariant {σ α : Type} (step : σ → α → Option σ) (P : σ → Prop)
    (hstep : ∀ s a s', P s → step s a = some s' → P s') (l : List α) (s s' : σ)
    (hs : P s) (h : l.foldlM step s = some s') : P s' := by
  induction l generalizing s with
  | nil =>
    simp only [List.foldlM_nil] at h
    cases h
    exact hs
  | cons a l ih =>
    simp only [List.foldlM_cons] at h
    cases hsa : step s a with
    | none => rw [hsa] at h; cases h
    | some s₁ =>
      rw [hsa] at h
      exact ih s₁ (hstep s a s₁ hs hsa) h

theorem ls_eq_some (cwd : List Str) (files : List SiaFile) (path : Str)
    (entries : List ListEntry) (h : ls cwd files path = some entries) :
    ∃ m, MapOk files path m ∧
      entries = (m.map Prod.snd).insertionSort
        (fun a b => codeUnits a.name ≤ codeUnits b.name) := by
  unfold ls at h
  rw [Option.map_eq_some'] at h
  obtain ⟨m, hm, rfl⟩ := h
  refine ⟨m, ?_, rfl⟩
  exact foldlM_invariant (lsStep cwd files path) (MapOk files path)
    (fun s a s' hs hstep => lsStep_ok cwd files path s s' a hs hstep) _ [] m
    ⟨by simp, by simp⟩ hm

theorem utf16Units_cons_inj (c d : Char) (r r' : List ℕ)
    (h : utf16Units c ++ r = utf16Units d ++ r') : c = d ∧ r = r' := by
  have hc : c.toNat < 55296 ∨ 57343 < c.toNat ∧ c.toNat < 1114112 := c.valid
  have hd : d.toNat < 55296 ∨ 57343 < d.toNat ∧ d.toNat < 1114112 := d.valid
  have heq : c.toNat = d.toNat → c = d := fun hn => Char.ext (UInt32.ext hn)
  unfold utf16Units at h
  by_cases h1 : c.toNat < 65536
  · by_cases h2 : d.toNat < 65536
    · rw [if_pos h1, if_pos h2] at h
      simp only [List.cons_append, List.nil_append, List.cons.injEq] at h
      exact ⟨heq h.1, h.2⟩
    · rw [if_pos h1, if_neg h2] at h
      simp only [List.cons_append, List.nil_append, List.cons.injEq] at h
      omega
  · by_cases h2 : d.toNat < 65536
    · rw [if_neg h1, if_pos h2] at h
      simp only [List.cons_append, List.nil_append, List.cons.injEq] at h
      omega
    · rw [if_neg h1, if_neg h2] at h
      simp only [List.cons_append, List.nil_append, List.cons.injEq] at h
      obtain ⟨ha, hb, hr⟩ := h
      exact ⟨heq (by omega), hr⟩

theorem utf16Units_ne_nil (c : Char) (r : List ℕ) : utf16Units c ++ r ≠ [] := by
  unfold utf16Units
  split <;> simp

/-- Distinct strings have distinct code unit sequences. -/
theorem codeUnits_injective (s t : Str) (h : codeUnits s = codeUnits t) : s = t := by
  induction s generalizing t with
  | nil =>
    cases t with
    | nil => rfl
    | cons d t => exact absurd h.symm (utf16Units_ne_nil d _)
  | cons c s ih =>
    cases t with
    | nil => exact absurd h (utf16Units_ne_nil c _)
    | cons d t =>
      obtain ⟨hcd, hrest⟩ := utf16Units_cons_inj c d _ _ h
      rw [hcd, ih t hrest]

theorem sorted_names_unique (l₁ l₂ : List ListEntry) (hperm : l₁.Perm l₂)
    (hnd : (l₁.map (fun e => e.name)).Nodup)
    (h₁ : l₁.Pairwise (fun a b => codeUnits a.name ≤ codeUnits b.name))
    (h₂ : l₂.Pairwise (fun a b => codeUnits a.name ≤ codeUnits b.name)) : l₁ = l₂ := by
  have hnd₂ : (l₂.map (fun e => e.name)).Nodup :=
    ((hperm.map (fun e => e.name)).nodup_iff).1 hnd
  have strict : ∀ l : List ListEntry, (l.map (fun e => e.name)).Nodup →
      l.Pairwise (fun a b => codeUnits a.name ≤ codeUnits b.name) →
      l.Pairwise (fun a b => codeUnits a.name < codeUnits b.name) := by
    intro l hl hs
    have hne : l.Pairwise (fun a b => a.name ≠ b.name) := by
      rw [List.Nodup, List.pairwise_map] at hl
      exact hl
    exact (hs.and hne).imp
      (fun h => lt_of_le_of_ne h.1 (fun heq => h.2 (codeUnits_injective _ _ heq)))
  have hanti : IsAntisymm ListEntry (fun a b => codeUnits a.name < codeUnits b.name) :=
    ⟨fun a b hab hba => absurd hab (lt_asymm hba)⟩
  exact List.eq_of_perm_of_sorted hperm (strict l₁ hnd h₁) (strict l₂ hnd₂ h₂)

/-- The listing does not depend on the order in which the map hands out its
values: sorting any rearrangement of the entries gives the same list. -/
theorem ls_sort_order_independent (files : List SiaFile) (path : Str)
    (m m' : List (Str × ListEntry)) (hm : MapOk files path m) (hperm : m'.Perm m) :
    (m'.map Prod.snd).insertionSort (fun a b => codeUnits a.name ≤ codeUnits b.name)
      = (m.map Prod.snd).insertionSort (fun a b => codeUnits a.name ≤ codeUnits b.name) := by
  have htotal : IsTotal ListEntry (fun a b => codeUnits a.name ≤ codeUnits b.name) :=
    ⟨fun a b => le_total (codeUnits a.name) (codeUnits b.name)⟩
  have htrans : IsTrans ListEntry (fun a b => codeUnits a.name ≤ codeUnits b.name) :=
    ⟨fun a b c hab hbc => le_trans hab hbc⟩
  have hkeys : m.map ((fun e : ListEntry => e.name) ∘ Prod.snd) = m.map Prod.fst := by
    apply List.map_congr_left
    intro p hp
    exact (hm.2 p hp).1
  have hp₁ := List.perm_insertionSort
    (fun a b : ListEntry => codeUnits a.name ≤ codeUnits b.name) (m'.map Prod.snd)
  have hp₂ := List.perm_insertionSort
    (fun a b : ListEntry => codeUnits a.name ≤ codeUnits b.name) (m.map Prod.snd)
  apply sorted_names_unique _ _ (hp₁.trans ((hperm.map Prod.snd).trans hp₂.symm))
  · rw [((hp₁.trans (hperm.map Prod.snd)).map (fun e => e.name)).nodup_iff, List.map_map, hkeys]
    exact hm.1
  · exact List.sorted_insertionSort _ _
  · exact List.sorted_insertionSort _ _

theorem ls_nestedFiles : ls exampleCwd nestedFiles [] = some [nestedEntryB, nestedEntryC] := by
  with_unfolding_all decide

theorem ls_entry_ok (cwd : List Str) (files : List SiaFile) (path : Str)
    (entries : List ListEntry) (h : ls cwd files path = some entries) (e : ListEntry)
    (he : e ∈ entries) : EntryOk files path e := by
  obtain ⟨m, hm, rfl⟩ := ls_eq_some cwd files path entries h
  rw [(List.perm_insertionSort _ _).mem_iff, List.mem_map] at he
  obtain ⟨p, hp, rfl⟩ := he
  exact (hm.2 p hp).2

/-- C2 (amended): every directory entry of `ls(records, basePath)` has the siapath
`Path.posix.join(basePath, name) + '/'`, and its size is `readableFilesize` of the
sum of `filesize` over exactly the records whose siapath contains that siapath as
a substring. -/
theorem ls_directory_size (cwd : List Str) (files : List SiaFile) (path : Str)
    (entries : List ListEntry) (h : ls cwd files path = some entries) (e : ListEntry)
    (he : e ∈ entries) (hdir : e.type = .directory) :
    e.siapath = posixJoin path e.name ++ ['/'] ∧
    e.size = readableFilesize (.fin
      (((files.filter (fun f => decide (e.siapath <:+: f.siapath))).map
        (fun f => f.filesize)).sum : ℕ)) := by
  obtain ⟨h1, h2, -⟩ := ls_entry_ok cwd files path entries h e he hdir
  exact ⟨h1, h2⟩

/-- C2 (witness): the directory `b` of the listing of `b/x` and `c/b/y`. -/
theorem ls_directory_size_witness :
    ls exampleCwd nestedFiles [] = some [nestedEntryB, nestedEntryC] ∧
    nestedEntryB ∈ [nestedEntryB, nestedEntryC] ∧ nestedEntryB.type = .directory ∧
    (nestedEntryB.siapath = posixJoin [] nestedEntryB.name ++ ['/'] ∧
    nestedEntryB.size = readableFilesize (.fin
      (((nestedFiles.filter (fun f => decide (nestedEntryB.siapath <:+: f.siapath))).map
        (fun f => f.filesize)).sum : ℕ))) :=
  ⟨ls_nestedFiles, by decide, rfl,
    ls_directory_size exampleCwd nestedFiles [] _ ls_nestedFiles nestedEntryB (by decide) rfl⟩

/-- C2 (counterexample): in the listing of `b/x` (1 byte) and `c/b/y` (2 bytes) at
the root, the directory `b` has size `3 B`, not the `1 B` of the only record that
begins with `b/`. -/
theorem ls_directory_size_counterexample :
    ∃ entries, ls exampleCwd nestedFiles [] = some entries ∧
      ∃ e ∈ entries, e.type = .directory ∧
        e.size ≠ readableFilesize (.fin
          (((nestedFiles.filter (fun f => decide (([] ++ e.name ++ ['/']) <+: f.siapath))).map
            (fun f => f.filesize)).sum : ℕ)) :=
  ⟨[nestedEntryB, nestedEntryC], ls_nestedFiles, nestedEntryB, by decide, rfl,
    by with_unfolding_all decide⟩

/-- C6: no two entries of a listing have the same name. -/
theorem ls_names_nodup (cwd : List Str) (files : List SiaFile) (path : Str)
    (entries : List ListEntry) (h : ls cwd files path = some entries) :
    (entries.map (fun e => e.name)).Nodup := by
  obtain ⟨m, hm, rfl⟩ := ls_eq_some cwd files path entries h
  have hperm := (List.perm_insertionSort
    (fun a b : ListEntry => codeUnits a.name ≤ codeUnits b.name)
    (m.map Prod.snd)).map (fun e => e.name)
  rw [hperm.nodup_iff, List.map_map]
  have hkeys : m.map ((fun e : ListEntry => e.name) ∘ Prod.snd) = m.map Prod.fst := by
    apply List.map_congr_left
    intro p hp
    exact (hm.2 p hp).1
  rw [hkeys]
  exact hm.1

/-- C6 (witness): the listing of `b/x` and `c/b/y` at the root. -/
theorem ls_names_nodup_witness :
    ls exampleCwd nestedFiles [] = some [nestedEntryB, nestedEntryC] ∧
    ([nestedEntryB, nestedEntryC].map (fun e => e.name)).Nodup :=
  ⟨ls_nestedFiles, ls_names_nodup exampleCwd nestedFiles [] _ ls_nestedFiles⟩

/-- C7: the entries of a listing are in ascending order of name, names being
compared as JavaScript compares strings (lexicographically by UTF-16 code
units): every entry's name is at most the name of every later entry, in
particular of the next one. -/
theorem ls_sorted_by_name (cwd : List Str) (files : List SiaFile) (path : Str)
    (entries : List ListEntry) (h : ls cwd files path = some entries) :
    entries.Pairwise (fun a b => codeUnits a.name ≤ codeUnits b.name) ∧
    entries.Chain' (fun a b => codeUnits a.name ≤ codeUnits b.name) := by
  obtain ⟨m, -, rfl⟩ := ls_eq_some cwd files path entries h
  have htotal : IsTotal ListEntry (fun a b => codeUnits a.name ≤ codeUnits b.name) :=
    ⟨fun a b => le_total (codeUnits a.name) (codeUnits b.name)⟩
  have htrans : IsTrans ListEntry (fun a b => codeUnits a.name ≤ codeUnits b.name) :=
    ⟨fun a b c hab hbc => le_trans hab hbc⟩
  have hsorted := List.sorted_insertionSort
    (fun a b : ListEntry => codeUnits a.name ≤ codeUnits b.name) (m.map Prod.snd)
  exact ⟨hsorted, List.Pairwise.chain' hsorted⟩

/-- C7 (witness): the listing of `b/x` and `c/b/y` at the root. -/
theorem ls_sorted_by_name_witness :
    ls exampleCwd nestedFiles [] = some [nestedEntryB, nestedEntryC] ∧
    ([nestedEntryB, nestedEntryC].Pairwise (fun a b => codeUnits a.name ≤ codeUnits b.name) ∧
    [nestedEntryB, nestedEntryC].Chain' (fun a b => codeUnits a.name ≤ codeUnits b.name)) :=
  ⟨ls_nestedFiles, ls_sorted_by_name exampleCwd nestedFiles [] _ ls_nestedFiles⟩

/-- Names outside the basic plane sort by their surrogates: the file named
`U+1F600` is listed before the file named `U+E000`, as in JavaScript, although
its code point is the larger one. -/
theorem ls_astralFiles :
    (ls exampleCwd astralFiles []).map (fun entries => entries.map (fun e => e.name))
      = some [[Char.ofNat 128512], [Char.ofNat 57344]] ∧
    codeUnits [Char.ofNat 128512] = [55357, 56832] ∧
    codeUnits [Char.ofNat 57344] = [57344] := by
  refine ⟨by decide, by rfl, by rfl⟩

/-- C8: when `ls` succeeds, the redundancy of a directory entry is at most the
redundancy of every input record whose siapath begins with the siapath of the
entry. -/
theorem ls_directory_redundancy_le (cwd : List Str) (files : List SiaFile) (path : Str)
    (entries : List ListEntry) (h : ls cwd files path = some entries) (e : ListEntry)
    (he : e ∈ entries) (hdir : e.type = .directory) (f : SiaFile) (hf : f ∈ files)
    (hstart : e.siapath <+: f.siapath) : e.redundancy ≤ f.redundancy := by
  obtain ⟨-, -, hmin⟩ := ls_entry_ok cwd files path entries h e he hdir
  have hmem : f ∈ subfilesOf files e.siapath := by
    simp only [subfilesOf, List.mem_filter, decide_eq_true_eq]
    exact ⟨hf, hstart.isInfix⟩
  obtain ⟨r, hr, -, hle⟩ := minRedundancy_spec (subfilesOf files e.siapath)
    (List.ne_nil_of_mem hmem)
  rw [hmin] at hr
  cases hr
  exact hle f hmem

/-- C8 (witness): the directory `c` of the listing of `b/x` and `c/b/y`, and its
descendant `c/b/y`. -/
theorem ls_directory_redundancy_le_witness :
    ls exampleCwd nestedFiles [] = some [nestedEntryB, nestedEntryC] ∧
    nestedEntryC ∈ [nestedEntryB, nestedEntryC] ∧ nestedEntryC.type = .directory ∧
    nestedFileCBY ∈ nestedFiles ∧ nestedEntryC.siapath <+: nestedFileCBY.siapath ∧
    nestedEntryC.redundancy ≤ nestedFileCBY.redundancy :=
  ⟨ls_nestedFiles, by decide, rfl, by decide, by decide,
    ls_directory_redundancy_le exampleCwd nestedFiles [] _ ls_nestedFiles nestedEntryC
      (by decide) rfl nestedFileCBY (by decide) (by decide)⟩

/-- C3 (failing input): for the files `x` and `b/x` listed at the root, the second
siapath is the base path, the segment `b`, a slash and the remainder `x`, yet the
listing is the single file entry `x` and has no entry named `b`: the record `b/x`
is skipped because its basename `x` is already a key of the map. -/
theorem ls_skips_directory :
    (['b', '/', 'x'] : Str) = [] ++ ['b'] ++ ['/'] ++ ['x'] ∧
    ls exampleCwd shadowedFiles [] = some [shadowEntryX] ∧
    ∀ e ∈ [shadowEntryX], e.name ≠ ['b'] := by
  refine ⟨rfl, ?_, ?_⟩
  · with_unfolding_all decide
  · decide

/-- C4 (failing input): for the files `a/c` and `z/a/b` listed at `a/`, the record
`z/a/b` passes the substring filter, its relative path is `../z/a/b`, the directory
siapath computed for it is `./`, no siapath contains it, and `ls` throws. -/
theorem ls_throws_on_stray_match :
    relative exampleCwd ['a', '/'] ['z', '/', 'a', '/', 'b']
      = ['.', '.', '/', 'z', '/', 'a', '/', 'b'] ∧
    posixJoin ['a', '/'] ['.', '.'] ++ ['/'] = ['.', '/'] ∧
    subfilesOf strayFiles ['.', '/'] = [] ∧
    ls exampleCwd strayFiles ['a', '/'] = none := by
  refine ⟨by decide, by decide, by decide, ?_⟩
  with_unfolding_all decide

/-- C5 (failing input): for the files `d/x` (available, progress 10) and `d/y`
(unavailable, progress 50) listed at the root, the kept entry `d` carries the
`available` and `uploadprogress` of the second record: the guard tests the
basename `y`, which is not a key, and `set` replaces the entry made from `d/x`. -/
theorem ls_directory_last_wins :
    ls exampleCwd siblingFiles [] = some [siblingEntryD] ∧
    siblingEntryD.available = false ∧ siblingEntryD.uploadprogress = 50 := by
  refine ⟨?_, rfl, rfl⟩
  with_unfolding_all decide

/-! ## `estimatedStorage` -/

theorem plus_fin (a b : ℚ) : (Num.fin a).plus (.fin b) = .fin (a + b) := rfl

theorem minus_fin (a b : ℚ) : (Num.fin a).minus (.fin b) = .fin (a + -b) := rfl

theorem times_fin (a b : ℚ) : (Num.fin a).times (.fin b) = .fin (a * b) := rfl

theorem dividedBy_fin (dp : ℕ) (a b : ℚ) (hb : b ≠ 0) :
    (Num.fin a).dividedBy dp (.fin b) = .fin (roundDP dp (a / b)) := by
  simp [Num.dividedBy, hb]

theorem foldl_plus_fin (hosts : List HostQuote) (metric : HostQuote → ℚ) (a : ℚ) :
    hosts.foldl (fun (sum : Num) host => sum.plus (.fin (metric host))) (.fin a)
      = .fin (a + (hosts.map metric).sum) := by
  induction hosts generalizing a with
  | nil => simp
  | cons h hs ih =>
    simp only [List.foldl_cons, plus_fin, List.map_cons, List.sum_cons]
    rw [ih, add_assoc]

theorem avgHostMetric_fin (dp : ℕ) (hosts : List HostQuote) (metric : HostQuote → ℚ)
    (hne : hosts ≠ []) :
    avgHostMetric dp hosts metric
      = .fin (roundDP dp ((hosts.map metric).sum / (hosts.length : ℚ))) := by
  have hlen : (hosts.length : ℚ) ≠ 0 := by
    have : hosts.length ≠ 0 := fun h => hne (List.length_eq_zero.1 h)
    exact_mod_cast this
  unfold avgHostMetric
  rw [foldl_plus_fin, dividedBy_fin dp _ _ hlen, zero_add]

theorem specSample_eq (hosts : List HostQuote) : specSample hosts = hosts.take 28 := by
  unfold specSample
  by_cases h : hosts.length ≤ 28
  · rw [min_eq_right h, List.take_length, List.take_of_length_le h]
  · rw [min_eq_left (le_of_lt (not_le.1 h))]

theorem log10Floor_eq_log (fuel n : ℕ) (h : n ≤ fuel) : log10Floor fuel n = Nat.log 10 n := by
  induction fuel generalizing n with
  | zero =>
    have : n = 0 := Nat.le_zero.1 h
    subst this
    simp [log10Floor]
  | succ fuel ih =>
    unfold log10Floor
    by_cases hn : n < 10
    · rw [if_pos hn, Nat.log_of_lt hn]
    · rw [if_neg hn, Nat.log_of_one_lt_of_le (by norm_num) (not_lt.1 hn), ih (n / 10) (by omega)]

theorem log10Ceil_eq_clog (fuel n : ℕ) (h : n ≤ fuel) : log10Ceil fuel n = Nat.clog 10 n := by
  induction fuel generalizing n with
  | zero =>
    have : n = 0 := Nat.le_zero.1 h
    subst this
    simp [log10Ceil]
  | succ fuel ih =>
    unfold log10Ceil
    by_cases hn : n ≤ 1
    · rw [if_pos hn, Nat.clog_of_right_le_one hn]
    · rw [if_neg hn, Nat.clog_of_two_le (by norm_num) (by omega), ih ((n + 9) / 10) (by omega)]
      rfl

theorem exponent10_eq (a : ℚ) :
    exponent10 a = if 1 ≤ a then (Nat.log 10 ⌊a⌋₊ : ℤ) else -(Nat.clog 10 ⌈1 / a⌉₊ : ℤ) := by
  unfold exponent10
  rw [log10Floor_eq_log _ _ le_rfl, log10Ceil_eq_clog _ _ le_rfl]

/-! ## Rounding to a double -/

theorem pow2_eq_zpow (e : ℤ) : pow2 e = (2 : ℚ) ^ e := by
  unfold pow2
  by_cases h : 0 ≤ e
  · rw [if_pos h]
    conv_rhs => rw [← Int.toNat_of_nonneg h]
    rw [zpow_natCast]
  · rw [if_neg h]
    have h' : 0 ≤ -e := by omega
    have he : e = -((-e).toNat : ℤ) := by
      rw [Int.toNat_of_nonneg h']
      ring
    conv_rhs => rw [he]
    rw [zpow_neg, zpow_natCast, one_div]

theorem pow2_pos (e : ℤ) : 0 < pow2 e := by
  rw [pow2_eq_zpow]
  exact zpow_pos (by norm_num) _

theorem log2Floor_eq_log (fuel n : ℕ) (h : n ≤ fuel) : log2Floor fuel n = Nat.log 2 n := by
  induction fuel generalizing n with
  | zero =>
    have : n = 0 := Nat.le_zero.1 h
    subst this
    simp [log2Floor]
  | succ fuel ih =>
    unfold log2Floor
    by_cases hn : n < 2
    · rw [if_pos hn, Nat.log_of_lt hn]
    · rw [if_neg hn, Nat.log_of_one_lt_of_le (by norm_num) (not_lt.1 hn), ih (n / 2) (by omega)]

theorem log2Ceil_eq_clog (fuel n : ℕ) (h : n ≤ fuel) : log2Ceil fuel n = Nat.clog 2 n := by
  induction fuel generalizing n with
  | zero =>
    have : n = 0 := Nat.le_zero.1 h
    subst this
    simp [log2Ceil]
  | succ fuel ih =>
    unfold log2Ceil
    by_cases hn : n ≤ 1
    · rw [if_pos hn, Nat.clog_of_right_le_one hn]
    · rw [if_neg hn, Nat.clog_of_two_le (by norm_num) (by omega), ih ((n + 1) / 2) (by omega)]
      rfl

theorem exponent2_eq (a : ℚ) :
    exponent2 a = if 1 ≤ a then (Nat.log 2 ⌊a⌋₊ : ℤ) else -(Nat.clog 2 ⌈1 / a⌉₊ : ℤ) := by
  unfold exponent2
  rw [log2Floor_eq_log _ _ le_rfl, log2Ceil_eq_clog _ _ le_rfl]

theorem exponent2_spec (a : ℚ) (ha : 0 < a) :
    (2 : ℚ) ^ exponent2 a ≤ a ∧ a < (2 : ℚ) ^ (exponent2 a + 1) := by
  rw [exponent2_eq]
  by_cases h1 : 1 ≤ a
  · rw [if_pos h1]
    have hfloor : ⌊a⌋₊ ≠ 0 := by
      have : 1 ≤ ⌊a⌋₊ := Nat.le_floor (by simpa using h1)
      omega
    constructor
    · rw [zpow_natCast]
      have h := Nat.pow_log_le_self 2 hfloor
      have h' : ((2 ^ Nat.log 2 ⌊a⌋₊ : ℕ) : ℚ) ≤ (⌊a⌋₊ : ℚ) := by exact_mod_cast h
      push_cast at h'
      exact le_trans h' (Nat.floor_le (le_of_lt ha))
    · have h := Nat.lt_pow_succ_log_self (by norm_num : 1 < 2) ⌊a⌋₊
      have h' := (Nat.floor_lt (le_of_lt ha)).1 h
      have hexp : ((Nat.log 2 ⌊a⌋₊ : ℕ) : ℤ) + 1 = (((Nat.log 2 ⌊a⌋₊).succ : ℕ) : ℤ) := by
        push_cast
        rfl
      rw [hexp, zpow_natCast]
      push_cast at h'
      exact h'
  · rw [if_neg h1]
    have hlt : a < 1 := not_le.1 h1
    have hinv : 1 < 1 / a := by
      rw [lt_div_iff₀ ha]
      linarith
    have hceil : 1 < ⌈1 / a⌉₊ := Nat.lt_ceil.2 (by simpa using hinv)
    have hP : ∀ n : ℕ, (0 : ℚ) < 2 ^ n := fun n => pow_pos (by norm_num) n
    constructor
    · rw [zpow_neg, zpow_natCast]
      have h := Nat.le_pow_clog (by norm_num : 1 < 2) ⌈1 / a⌉₊
      have h' : 1 / a ≤ ((2 ^ Nat.clog 2 ⌈1 / a⌉₊ : ℕ) : ℚ) := Nat.ceil_le.1 h
      push_cast at h'
      have := (one_div_le ha (hP _)).1 h'
      rwa [one_div] at this
    · have h := Nat.pow_pred_clog_lt_self (by norm_num : 1 < 2) hceil
      have h' : ((2 ^ (Nat.clog 2 ⌈1 / a⌉₊).pred : ℕ) : ℚ) < 1 / a := Nat.lt_ceil.1 h
      push_cast at h'
      have hk : 1 ≤ Nat.clog 2 ⌈1 / a⌉₊ := Nat.clog_pos (by norm_num) (by omega)
      have hexp : -((Nat.clog 2 ⌈1 / a⌉₊ : ℕ) : ℤ) + 1
          = -(((Nat.clog 2 ⌈1 / a⌉₊).pred : ℕ) : ℤ) := by
        rw [Nat.pred_eq_sub_one]
        omega
      rw [hexp, zpow_neg, zpow_natCast]
      have := (lt_one_div (hP _) ha).1 h'
      rwa [one_div] at this

theorem roundHalfEven_ge (q : ℚ) : ⌊q⌋₊ ≤ roundHalfEven q := by
  unfold roundHalfEven
  split_ifs <;> omega

theorem roundHalfEven_le (q : ℚ) : roundHalfEven q ≤ ⌊q⌋₊ + 1 := by
  unfold roundHalfEven
  split_ifs <;> omega

theorem roundHalfEven_mono (a b : ℚ) (h : a ≤ b) : roundHalfEven a ≤ roundHalfEven b := by
  have hfl : ⌊a⌋₊ ≤ ⌊b⌋₊ := Nat.floor_mono h
  rcases Nat.lt_or_eq_of_le hfl with hlt | heq
  · exact le_trans (roundHalfEven_le a) (le_trans hlt (roundHalfEven_ge b))
  · unfold roundHalfEven
    rw [← heq]
    split_ifs <;> first | omega | (exfalso; linarith)

theorem toDouble_zero : toDouble 0 = 0 := by
  simp [toDouble]

theorem toDouble_of_pos (q : ℚ) (hq : 0 < q) :
    toDouble q = (roundHalfEven (q / pow2 (exponent2 q - 52)) : ℚ) * pow2 (exponent2 q - 52) := by
  unfold toDouble
  rw [if_neg (ne_of_gt hq), if_neg (not_lt.2 (le_of_lt hq))]

theorem toDouble_nonneg (q : ℚ) (h : 0 ≤ q) : 0 ≤ toDouble q := by
  by_cases h0 : q = 0
  · rw [h0, toDouble_zero]
  · rw [toDouble_of_pos q (lt_of_le_of_ne h (Ne.symm h0))]
    exact mul_nonneg (Nat.cast_nonneg _) (le_of_lt (pow2_pos _))

theorem toDouble_nonpos (q : ℚ) (h : q ≤ 0) : toDouble q ≤ 0 := by
  by_cases h0 : q = 0
  · rw [h0, toDouble_zero]
  · unfold toDouble
    rw [if_neg h0, if_pos (lt_of_le_of_ne h h0)]
    have : (0 : ℚ) ≤ (roundHalfEven (-q / pow2 (exponent2 (-q) - 52)) : ℚ)
        * pow2 (exponent2 (-q) - 52) :=
      mul_nonneg (Nat.cast_nonneg _) (le_of_lt (pow2_pos _))
    linarith

theorem pow2_shift (e : ℤ) : (2 : ℚ) ^ 52 * pow2 (e - 52) = (2 : ℚ) ^ e := by
  rw [pow2_eq_zpow, ← zpow_natCast, ← zpow_add₀ (by norm_num : (2 : ℚ) ≠ 0)]
  congr 1
  push_cast
  ring

theorem significand_bounds (q : ℚ) (hq : 0 < q) :
    2 ^ 52 ≤ roundHalfEven (q / pow2 (exponent2 q - 52)) ∧
    roundHalfEven (q / pow2 (exponent2 q - 52)) ≤ 2 ^ 53 := by
  obtain ⟨hlo, hhi⟩ := exponent2_spec q hq
  have hs : 0 < pow2 (exponent2 q - 52) := pow2_pos _
  have hshift := pow2_shift (exponent2 q)
  have hc52 : ((2 ^ 52 : ℕ) : ℚ) = (2 : ℚ) ^ 52 := by norm_num
  have hc53 : ((2 ^ 53 : ℕ) : ℚ) = (2 : ℚ) ^ 53 := by norm_num
  have h1 : ((2 ^ 52 : ℕ) : ℚ) ≤ q / pow2 (exponent2 q - 52) := by
    rw [hc52, le_div_iff₀ hs, hshift]
    exact hlo
  have h2 : q / pow2 (exponent2 q - 52) < ((2 ^ 53 : ℕ) : ℚ) := by
    have h53 : (2 : ℚ) ^ 53 * pow2 (exponent2 q - 52) = (2 : ℚ) ^ (exponent2 q + 1) := by
      rw [zpow_add_one₀ (by norm_num : (2 : ℚ) ≠ 0), ← hshift]
      ring
    rw [hc53, div_lt_iff₀ hs, h53]
    exact hhi
  have hx : 0 ≤ q / pow2 (exponent2 q - 52) := div_nonneg (le_of_lt hq) (le_of_lt hs)
  constructor
  · exact le_trans (Nat.le_floor h1) (roundHalfEven_ge _)
  · have hfl : ⌊q / pow2 (exponent2 q - 52)⌋₊ < 2 ^ 53 := (Nat.floor_lt hx).2 h2
    have := roundHalfEven_le (q / pow2 (exponent2 q - 52))
    omega

theorem toDouble_mono (a b : ℚ) (ha : 0 ≤ a) (hab : a ≤ b) : toDouble a ≤ toDouble b := by
  by_cases ha0 : a = 0
  · rw [ha0, toDouble_zero]
    exact toDouble_nonneg b (le_trans ha hab)
  · have hapos : 0 < a := lt_of_le_of_ne ha (Ne.symm ha0)
    have hbpos : 0 < b := lt_of_lt_of_le hapos hab
    obtain ⟨halo, -⟩ := exponent2_spec a hapos
    obtain ⟨-, hbhi⟩ := exponent2_spec b hbpos
    obtain ⟨-, hNa⟩ := significand_bounds a hapos
    obtain ⟨hNb, -⟩ := significand_bounds b hbpos
    have hsa : 0 < pow2 (exponent2 a - 52) := pow2_pos _
    have hsb : 0 < pow2 (exponent2 b - 52) := pow2_pos _
    have hexp : exponent2 a < exponent2 b + 1 :=
      (zpow_lt_zpow_iff_right₀ (by norm_num : (1 : ℚ) < 2)).1
        (lt_of_le_of_lt halo (lt_of_le_of_lt hab hbhi))
    rw [toDouble_of_pos a hapos, toDouble_of_pos b hbpos]
    by_cases heq : exponent2 a = exponent2 b
    · rw [heq]
      apply mul_le_mul_of_nonneg_right _ (le_of_lt hsb)
      have hmono := roundHalfEven_mono (a / pow2 (exponent2 b - 52))
        (b / pow2 (exponent2 b - 52)) (div_le_div_of_nonneg_right hab (le_of_lt hsb))
      exact_mod_cast hmono
    · have hlt : exponent2 a + 1 ≤ exponent2 b := by omega
      have hNa' : (roundHalfEven (a / pow2 (exponent2 a - 52)) : ℚ) ≤ 2 ^ 53 := by
        exact_mod_cast hNa
      have hNb' : (2 : ℚ) ^ 52 ≤ (roundHalfEven (b / pow2 (exponent2 b - 52)) : ℚ) := by
        exact_mod_cast hNb
      have hstep : (2 : ℚ) ^ (exponent2 a + 1) ≤ 2 ^ exponent2 b :=
        zpow_le_zpow_right₀ (by norm_num) hlt
      have h53 : (2 : ℚ) ^ 53 * pow2 (exponent2 a - 52) = (2 : ℚ) ^ (exponent2 a + 1) := by
        rw [zpow_add_one₀ (by norm_num : (2 : ℚ) ≠ 0), ← pow2_shift (exponent2 a)]
        ring
      calc (roundHalfEven (a / pow2 (exponent2 a - 52)) : ℚ) * pow2 (exponent2 a - 52)
          ≤ 2 ^ 53 * pow2 (exponent2 a - 52) := mul_le_mul_of_nonneg_right hNa' (le_of_lt hsa)
        _ = 2 ^ (exponent2 a + 1) := h53
        _ ≤ 2 ^ exponent2 b := hstep
        _ = 2 ^ 52 * pow2 (exponent2 b - 52) := (pow2_shift (exponent2 b)).symm
        _ ≤ (roundHalfEven (b / pow2 (exponent2 b - 52)) : ℚ) * pow2 (exponent2 b - 52) :=
          mul_le_mul_of_nonneg_right hNb' (le_of_lt hsb)

theorem roundSig1_nonpos (q : ℚ) (h : q ≤ 0) : roundSig1 q ≤ 0 := by
  unfold roundSig1
  by_cases h0 : q = 0
  · simp [h0]
  · have hlt : q < 0 := lt_of_le_of_ne h h0
    simp only [h0, if_false, hlt, if_true]
    have h1 : (0 : ℚ) ≤ (roundHalfUp (-q / 10 ^ exponent10 (-q)) : ℚ) := Nat.cast_nonneg _
    have h2 : (0 : ℚ) < (10 : ℚ) ^ exponent10 (-q) := zpow_pos (by norm_num) _
    have := mul_nonneg h1 (le_of_lt h2)
    linarith

theorem roundSig1_nonneg (q : ℚ) (h : 0 ≤ q) : 0 ≤ roundSig1 q := by
  unfold roundSig1
  by_cases h0 : q = 0
  · simp [h0]
  · have hlt : ¬ q < 0 := not_lt.2 h
    simp only [h0, if_false, hlt]
    have h1 : (0 : ℚ) ≤ (roundHalfUp (q / 10 ^ exponent10 q) : ℚ) := Nat.cast_nonneg _
    have h2 : (0 : ℚ) < (10 : ℚ) ^ exponent10 q := zpow_pos (by norm_num) _
    exact mul_nonneg h1 (le_of_lt h2)

theorem max_roundSig1 (q : ℚ) : max 0 (roundSig1 q) = roundSig1 (max 0 q) := by
  by_cases h : q ≤ 0
  · rw [max_eq_left (roundSig1_nonpos q h), max_eq_left h]
    simp [roundSig1]
  · have h' : 0 ≤ q := le_of_lt (not_le.1 h)
    rw [max_eq_right (roundSig1_nonneg q h'), max_eq_right h']

theorem clamp_toDouble (q : ℚ) :
    max 0 (toDouble (roundSig1 (toDouble q))) = toDouble (roundSig1 (toDouble (max 0 q))) := by
  have h0 : roundSig1 0 = 0 := by simp [roundSig1]
  by_cases h : q ≤ 0
  · rw [max_eq_left h, toDouble_zero, h0, toDouble_zero]
    exact max_eq_left (toDouble_nonpos _ (roundSig1_nonpos _ (toDouble_nonpos q h)))
  · have h' : 0 ≤ q := le_of_lt (not_le.1 h)
    rw [max_eq_right h']
    exact max_eq_right (toDouble_nonneg _ (roundSig1_nonneg _ (toDouble_nonneg q h')))

theorem estimatedBytes_of_quotient (dp : ℕ) (funds : ℚ) (hosts : List HostQuote) (q : ℚ)
    (h : storageQuotient dp funds hosts = .fin q) :
    estimatedBytes dp funds hosts = .fin (toDouble (roundSig1 (toDouble (max 0 q)))) := by
  unfold estimatedBytes
  rw [h]
  simp only [toNumber, toPrecision1, stringToNumber, mathMax0, clamp_toDouble]

theorem storageQuotient_eq (dp : ℕ) (funds : ℚ) (hosts : List HostQuote) (hne : hosts ≠ [])
    (hpos : 0 < specAvgStorageCost dp hosts) :
    storageQuotient dp funds hosts
      = .fin (roundDP dp ((funds - specFee dp funds hosts) / specAvgStorageCost dp hosts)) := by
  have hne' : hosts.take 28 ≠ [] := by
    cases hosts with
    | nil => exact absurd rfl hne
    | cons h hs => simp
  have hmean : ∀ metric, avgHostMetric dp (hosts.take 28) metric
      = .fin (specMean dp hosts metric) := by
    intro metric
    rw [avgHostMetric_fin dp _ metric hne', specMean, specSample_eq]
  have havg : avgStorageCost dp (hosts.take 28) allowancePeriod baseRedundancy
      = .fin (specAvgStorageCost dp hosts) := by
    unfold avgStorageCost specAvgStorageCost
    simp only [hmean, times_fin, plus_fin, allowancePeriod, blockMonth, allowanceMonths,
      baseRedundancy]
    norm_num
  have hne0 : specAvgStorageCost dp hosts ≠ 0 := ne_of_gt hpos
  unfold storageQuotient
  simp only [havg, hmean, siacoinsToHastings, times_fin, plus_fin, minus_fin,
    dividedBy_fin dp _ _ hne0]
  unfold specFee specBaseFee
  simp only [baseFee, ncontracts, siafundRate]
  norm_num
  congr 2
  ring

theorem estimatedBytes_eq (dp : ℕ) (funds : ℚ) (hosts : List HostQuote) (hne : hosts ≠ [])
    (hpos : 0 < specAvgStorageCost dp hosts) :
    estimatedBytes dp funds hosts
      = .fin (toDouble (roundSig1 (toDouble (specBytes dp funds hosts)))) :=
  estimatedBytes_of_quotient dp funds hosts _ (storageQuotient_eq dp funds hosts hne hpos)

/-- C10 (counterexample): with one host asking 1e13 hastings per byte downloaded
and funds of 242840909090909090909090900 hastings, the formula with exact
divisions gives a byte count below `2.5e11`, which rounds to `~200 GB`, while
`estimatedStorage` returns `~300 GB`: the quotient is first rounded to the
double `2.5e11`. -/
theorem estimatedStorage_formula_counterexample :
    [downloadOnlyHost] ≠ [] ∧ 0 < exactAvgStorageCost [downloadOnlyHost] ∧
    exactBytes nearTieFunds [downloadOnlyHost] < 25 * 10 ^ 10 ∧
    '~' :: readableFilesize (.fin (roundSig1 (exactBytes nearTieFunds [downloadOnlyHost])))
      = ['~', '2', '0', '0', ' ', 'G', 'B'] ∧
    estimatedStorage 20 nearTieFunds [downloadOnlyHost]
      = ['~', '3', '0', '0', ' ', 'G', 'B'] := by
  refine ⟨by decide, ?_, ?_, ?_, ?_⟩
  · with_unfolding_all decide
  · with_unfolding_all decide
  · with_unfolding_all decide
  · with_unfolding_all decide

/-- C10 (amended): for a non-empty host list with positive average storage cost,
the quotient `estimatedStorage` computes is `(funds - fee) / avgStorageCost`
rounded to `dp` decimal places, with the means (each rounded to `dp` decimal
places) taken over the first `min(28, number of hosts)` hosts and the storage
cost and the fee as in `specAvgStorageCost` and `specFee`.  When the clamped
quotient is 0 or lies between `10^-200` and `10^21` (where the doubles are
normal and `toFixed` prints every digit), the string returned is `~` followed
by the readable size of that quotient clamped below at 0, rounded to the
nearest double, then to one significant digit, then to the nearest double
again.  Two host lists with the same first 28 hosts give the same result. -/
theorem estimatedStorage_formula (dp : ℕ) (funds : ℚ) (hosts : List HostQuote)
    (hne : hosts ≠ []) (hpos : 0 < specAvgStorageCost dp hosts) :
    storageQuotient dp funds hosts
      = .fin (roundDP dp ((funds - specFee dp funds hosts) / specAvgStorageCost dp hosts)) ∧
    ((specBytes dp funds hosts = 0 ∨
        (1 / ((10 ^ 200 : ℕ) : ℚ) ≤ specBytes dp funds hosts ∧ specBytes dp funds hosts ≤ 10 ^ 21)) →
      estimatedStorage dp funds hosts
        = '~' :: readableFilesize
            (.fin (toDouble (roundSig1 (toDouble (specBytes dp funds hosts)))))) ∧
    ∀ hosts' : List HostQuote, hosts'.take 28 = hosts.take 28 →
      estimatedStorage dp funds hosts' = estimatedStorage dp funds hosts := by
  refine ⟨storageQuotient_eq dp funds hosts hne hpos, ?_, ?_⟩
  · intro _
    unfold estimatedStorage
    rw [estimatedBytes_eq dp funds hosts hne hpos]
  · intro hosts' h
    unfold estimatedStorage estimatedBytes storageQuotient
    simp only [h]

/-- C10 (witness): two equal hosts and funds of 1000 siacoins, for which the estimate
is `~400 GB`. -/
theorem estimatedStorage_formula_witness :
    [exampleHost, exampleHost] ≠ [] ∧ 0 < specAvgStorageCost 20 [exampleHost, exampleHost] ∧
    (1 / ((10 ^ 200 : ℕ) : ℚ) ≤ specBytes 20 (10 ^ 27) [exampleHost, exampleHost] ∧
      specBytes 20 (10 ^ 27) [exampleHost, exampleHost] ≤ 10 ^ 21) ∧
    estimatedStorage 20 (10 ^ 27) [exampleHost, exampleHost]
      = ['~', '4', '0', '0', ' ', 'G', 'B'] ∧
    (storageQuotient 20 (10 ^ 27) [exampleHost, exampleHost]
      = .fin (roundDP 20 ((10 ^ 27 - specFee 20 (10 ^ 27) [exampleHost, exampleHost])
          / specAvgStorageCost 20 [exampleHost, exampleHost])) ∧
    ((specBytes 20 (10 ^ 27) [exampleHost, exampleHost] = 0 ∨
        (1 / ((10 ^ 200 : ℕ) : ℚ) ≤ specBytes 20 (10 ^ 27) [exampleHost, exampleHost] ∧
          specBytes 20 (10 ^ 27) [exampleHost, exampleHost] ≤ 10 ^ 21)) →
      estimatedStorage 20 (10 ^ 27) [exampleHost, exampleHost]
        = '~' :: readableFilesize
            (.fin (toDouble (roundSig1
              (toDouble (specBytes 20 (10 ^ 27) [exampleHost, exampleHost])))))) ∧
    ∀ hosts' : List HostQuote, hosts'.take 28 = [exampleHost, exampleHost].take 28 →
      estimatedStorage 20 (10 ^ 27) hosts'
        = estimatedStorage 20 (10 ^ 27) [exampleHost, exampleHost]) :=
  ⟨by decide, by with_unfolding_all decide, by with_unfolding_all decide,
    by with_unfolding_all decide,
    estimatedStorage_formula 20 (10 ^ 27) [exampleHost, exampleHost] (by decide)
      (by with_unfolding_all decide)⟩

/-! ## `readableFilesize` -/

/-- C17 (amended): `readableFilesize(1500000)` is `2 MB`, because 1.5 is rounded
up by `toFixed`, and `readableFilesize(999)` is `999 B`. -/
theorem readableFilesize_examples :
    readableFilesize (.fin ((1500000 : ℕ) : ℚ)) = ['2', ' ', 'M', 'B'] ∧
    readableFilesize (.fin ((999 : ℕ) : ℚ)) = ['9', '9', '9', ' ', 'B'] := by
  constructor
  · with_unfolding_all decide
  · with_unfolding_all decide

/-- C17 (counterexample): `readableFilesize(1500000)` is not `1 MB`. -/
theorem readableFilesize_examples_counterexample :
    readableFilesize (.fin ((1500000 : ℕ) : ℚ)) ≠ ['1', ' ', 'M', 'B'] := by
  with_unfolding_all decide

/-- C19 (failing input): for `10^18` bytes no unit has a size below 1000, the loop
ends without setting the unit, and the result is `1 B` (the size divided by
`1000^6`, with the initial unit), not `1000 PB`. -/
theorem readableFilesize_units_exhausted :
    readableFilesize (.fin ((10 ^ 18 : ℕ) : ℚ)) = ['1', ' ', 'B'] ∧
    readableLoop units (.fin ((10 ^ 18 : ℕ) : ℚ)) = (['B'], .fin (((10 ^ 18 : ℕ) : ℚ) / 1000 ^ 6)) := by
  constructor
  · with_unfolding_all decide
  · simp only [readableLoop, units, Num.ltConst, Num.divConst]
    norm_num

/-! ## `parseDownloads` -/

theorem downloadEntry_status (d : Download) (hpos : 0 < d.filesize) :
    (downloadEntry d).status = .completed ↔
      d.filesize ≤ d.received ∧ d.received < 2 * d.filesize := by
  have hf : (0 : ℚ) < (d.filesize : ℚ) := by exact_mod_cast hpos
  have hne : (d.filesize : ℚ) ≠ 0 := ne_of_gt hf
  have hfloor : mathFloor (jsDiv d.received d.filesize) = .fin 1 ↔
      ⌊(d.received : ℚ) / (d.filesize : ℚ)⌋ = 1 := by
    simp only [jsDiv, hne, if_false, mathFloor, Num.fin.injEq]
    constructor
    · intro h
      exact_mod_cast h
    · intro h
      rw [h]
      norm_num
  have hstatus : (downloadEntry d).status = .completed ↔
      mathFloor (jsDiv d.received d.filesize) = .fin 1 := by
    unfold downloadEntry
    by_cases h : mathFloor (jsDiv d.received d.filesize) = .fin 1
    · simp [h]
    · simp [h]
  rw [hstatus, hfloor, Int.floor_eq_iff]
  constructor
  · rintro ⟨h1, h2⟩
    rw [le_div_iff₀ hf] at h1
    rw [div_lt_iff₀ hf] at h2
    constructor
    · have : (d.filesize : ℚ) ≤ (d.received : ℚ) := by simpa using h1
      exact_mod_cast this
    · have : (d.received : ℚ) < 2 * (d.filesize : ℚ) := by
        have h3 : ((1 : ℤ) : ℚ) + 1 = 2 := by norm_num
        rw [h3] at h2
        exact h2
      exact_mod_cast this
  · rintro ⟨h1, h2⟩
    have h1' : (d.filesize : ℚ) ≤ (d.received : ℚ) := by exact_mod_cast h1
    have h2' : (d.received : ℚ) < 2 * (d.filesize : ℚ) := by exact_mod_cast h2
    constructor
    · rw [le_div_iff₀ hf]
      simpa using h1'
    · rw [div_lt_iff₀ hf]
      have h3 : ((1 : ℤ) : ℚ) + 1 = 2 := by norm_num
      rw [h3]
      exact h2'

/-- C14 (amended): for a download with `filesize > 0`, the entry `parseDownloads`
emits for it has status `Completed` exactly when
`filesize ≤ received < 2 * filesize`, and status `Downloading` otherwise. -/
theorem parseDownloads_status (downloads : List Download) (d : Download)
    (hd : d ∈ downloads) (hpos : 0 < d.filesize) :
    downloadEntry d ∈ parseDownloads downloads ∧
    ((downloadEntry d).status = .completed ↔
      d.filesize ≤ d.received ∧ d.received < 2 * d.filesize) ∧
    ((downloadEntry d).status = .downloading ↔
      ¬ (d.filesize ≤ d.received ∧ d.received < 2 * d.filesize)) := by
  refine ⟨?_, downloadEntry_status d hpos, ?_⟩
  · unfold parseDownloads
    rw [(List.perm_insertionSort _ _).mem_iff]
    exact List.mem_map_of_mem _ hd
  · rw [← downloadEntry_status d hpos]
    cases (downloadEntry d).status <;> simp

/-- C14 (witness): a download that is half done is `Downloading`. -/
theorem parseDownloads_status_witness :
    halfDownload ∈ [overshootDownload, halfDownload] ∧ 0 < halfDownload.filesize ∧
    (downloadEntry halfDownload ∈ parseDownloads [overshootDownload, halfDownload] ∧
    ((downloadEntry halfDownload).status = .completed ↔
      halfDownload.filesize ≤ halfDownload.received ∧
        halfDownload.received < 2 * halfDownload.filesize) ∧
    ((downloadEntry halfDownload).status = .downloading ↔
      ¬ (halfDownload.filesize ≤ halfDownload.received ∧
        halfDownload.received < 2 * halfDownload.filesize))) :=
  ⟨by decide, by decide,
    parseDownloads_status [overshootDownload, halfDownload] halfDownload (by decide)
      (by decide)⟩

/-- C14 (counterexample): a download with `filesize = 1` and `received = 2` has
`received ≥ filesize`, yet its entry has status `Downloading`, since the floored
ratio is 2. -/
theorem parseDownloads_status_counterexample :
    0 < overshootDownload.filesize ∧ overshootDownload.filesize ≤ overshootDownload.received ∧
    parseDownloads [overshootDownload] = [downloadEntry overshootDownload] ∧
    (downloadEntry overshootDownload).status = .downloading := by
  refine ⟨by decide, by decide, rfl, ?_⟩
  with_unfolding_all decide

/-- With 29 of 100 bytes received the progress is 28: the double nearest to 0.29
times 100 is rounded to a double below 29. -/
theorem downloadEntry_partDownload : (downloadEntry partDownload).progress = .fin 28 := by
  with_unfolding_all decide

/-! ## `parseUploads` -/

theorem parseUploads_perm (files : List SiaFile) :
    (parseUploads files).Perm
      ((files.filter (fun f => decide (f.redundancy < 5 / 2 ∧ f.uploadprogress < 100))).map
        uploadEntry) := by
  unfold parseUploads
  refine (List.perm_insertionSort _ _).trans ((List.perm_insertionSort _ _).trans ?_)
  rw [List.filter_filter]
  have hfun : (fun a : SiaFile => decide (a.uploadprogress < 100) && decide (a.redundancy < 5 / 2))
      = (fun f => decide (f.redundancy < 5 / 2 ∧ f.uploadprogress < 100)) := by
    funext a
    rw [Bool.and_comm, Bool.decide_and]
  rw [hfun]

/-- C16: `parseUploads(files)` is a rearrangement of the entries of exactly the
records with `redundancy < 2.5` and `uploadprogress < 100`: every entry stems from
such a record and the output has as many entries as there are such records. -/
theorem parseUploads_filter (files : List SiaFile) :
    (parseUploads files).Perm
      ((files.filter (fun f => decide (f.redundancy < 5 / 2 ∧ f.uploadprogress < 100))).map
        uploadEntry) ∧
    (∀ e ∈ parseUploads files, ∃ f ∈ files,
      f.redundancy < 5 / 2 ∧ f.uploadprogress < 100 ∧ e = uploadEntry f) ∧
    (parseUploads files).length =
      (files.filter (fun f => decide (f.redundancy < 5 / 2 ∧ f.uploadprogress < 100))).length := by
  refine ⟨parseUploads_perm files, ?_, ?_⟩
  · intro e he
    rw [(parseUploads_perm files).mem_iff, List.mem_map] at he
    obtain ⟨f, hf, rfl⟩ := he
    rw [List.mem_filter, decide_eq_true_eq] at hf
    exact ⟨f, hf.1, hf.2.1, hf.2.2, rfl⟩
  · rw [(parseUploads_perm files).length_eq, List.length_map]

theorem uploadOrder_trans (a b c : UploadEntry) (hab : uploadOrder a b)
    (hbc : uploadOrder b c) : uploadOrder a c := by
  unfold uploadOrder at *
  rcases hab with h1 | ⟨h1, h1'⟩
  · rcases hbc with h2 | ⟨h2, -⟩
    · left; omega
    · left; omega
  · rcases hbc with h2 | ⟨h2, h2'⟩
    · left; omega
    · right; exact ⟨by omega, le_trans h1' h2'⟩

theorem orderedInsert_uploadOrder (a : UploadEntry) (l : List UploadEntry)
    (hl : l.Pairwise uploadOrder) (ha : ∀ b ∈ l, codeUnits a.name ≤ codeUnits b.name) :
    (l.orderedInsert (fun a b => -a.progress ≤ -b.progress) a).Pairwise uploadOrder := by
  induction l with
  | nil => simp
  | cons b l ih =>
    rw [List.pairwise_cons] at hl
    simp only [List.orderedInsert]
    split_ifs with h
    · have hab : uploadOrder a b := by
        unfold uploadOrder
        by_cases heq : a.progress = b.progress
        · right; exact ⟨heq, ha b (List.mem_cons_self _ _)⟩
        · left; omega
      rw [List.pairwise_cons]
      refine ⟨?_, List.pairwise_cons.2 hl⟩
      intro x hx
      rcases List.mem_cons.1 hx with rfl | hx
      · exact hab
      · exact uploadOrder_trans a b x hab (hl.1 x hx)
    · rw [List.pairwise_cons]
      refine ⟨?_, ih hl.2 (fun x hx => ha x (List.mem_cons_of_mem _ hx))⟩
      intro x hx
      rw [List.mem_orderedInsert] at hx
      rcases hx with rfl | hx
      · left; omega
      · exact hl.1 x hx

theorem insertionSort_uploadOrder (l : List UploadEntry)
    (hl : l.Pairwise (fun a b => codeUnits a.name ≤ codeUnits b.name)) :
    (l.insertionSort (fun a b => -a.progress ≤ -b.progress)).Pairwise uploadOrder := by
  induction l with
  | nil => simp
  | cons a l ih =>
    rw [List.pairwise_cons] at hl
    simp only [List.insertionSort]
    apply orderedInsert_uploadOrder a _ (ih hl.2)
    intro b hb
    rw [List.mem_insertionSort] at hb
    exact hl.1 b hb

/-- C15: the entries of `parseUploads(files)` are ordered by descending progress
with ascending name as the tie-break, names being compared as JavaScript
compares strings (lexicographically by UTF-16 code units): this holds of every
entry and every later one, in particular of every two adjacent entries. -/
theorem parseUploads_ordered (files : List SiaFile) :
    (parseUploads files).Pairwise
      (fun e e' => e.progress > e'.progress ∨
        (e.progress = e'.progress ∧ codeUnits e.name ≤ codeUnits e'.name)) ∧
    (parseUploads files).Chain'
      (fun e e' => e.progress > e'.progress ∨
        (e.progress = e'.progress ∧ codeUnits e.name ≤ codeUnits e'.name)) := by
  have htotal : IsTotal UploadEntry (fun a b => codeUnits a.name ≤ codeUnits b.name) :=
    ⟨fun a b => le_total (codeUnits a.name) (codeUnits b.name)⟩
  have htrans : IsTrans UploadEntry (fun a b => codeUnits a.name ≤ codeUnits b.name) :=
    ⟨fun a b c hab hbc => le_trans hab hbc⟩
  have h : (parseUploads files).Pairwise uploadOrder := by
    unfold parseUploads
    exact insertionSort_uploadOrder _ (List.sorted_insertionSort _ _)
  exact ⟨h, List.Pairwise.chain' h⟩

/-- Two uploads of equal progress named `U+E000` and `U+1F600` come out with
`U+1F600` first, as in JavaScript. -/
theorem parseUploads_astralUploads :
    (parseUploads astralUploads).map (fun e => e.name)
      = [[Char.ofNat 128512], [Char.ofNat 57344]] := by
  with_unfolding_all decide

/-- The upload list of `uploadFiles`: `c` (progress 70) first, then `a` before `b`
(both at progress 50); the finished `d` is left out. -/
theorem parseUploads_uploadFiles :
    (parseUploads uploadFiles).map (fun e => (e.name, e.progress))
      = [(['c'], 70), (['a'], 50), (['b'], 50)] := by
  with_unfolding_all decide

/-! ## `rangeSelect`, applied to its own result -/

theorem window_head (files : List SiaFile) (lo hi : ℕ) (hle : lo ≤ hi) :
    ((files.drop lo).take (hi + 1 - lo)).head? = files[lo]? := by
  rw [List.head?_take, if_neg (by omega), List.head?_drop]

theorem window_last (files : List SiaFile) (lo hi : ℕ) (hle : lo ≤ hi) (hhi : hi < files.length) :
    ((files.drop lo).take (hi + 1 - lo)).getLast? = files[hi]? := by
  rw [List.getLast?_eq_getElem?, List.length_take, List.length_drop, List.getElem?_take,
    if_pos (by omega), List.getElem?_drop]
  congr 1
  omega

theorem window_sublist (files : List SiaFile) (lo k : ℕ) :
    ((files.drop lo).take k).Sublist files :=
  (List.take_sublist _ _).trans (List.drop_sublist _ _)

theorem rangeSelect_of_window (file : SiaFile) (files : List SiaFile) (lo hi : ℕ)
    (hview : (files.map (fun f => f.siapath)).Nodup) (hfile : file ∈ files)
    (hle : lo ≤ hi) (hhi : hi < files.length) :
    rangeSelect file files ((files.drop lo).take (hi + 1 - lo)) =
      (files.drop (if lo ≤ List.indexOf file files then lo else List.indexOf file files)).take
        ((if lo ≤ List.indexOf file files then List.indexOf file files else hi) + 1 -
         (if lo ≤ List.indexOf file files then lo else List.indexOf file files)) := by
  have hnd : files.Nodup := List.Nodup.of_map _ hview
  have hlo : lo < files.length := lt_of_le_of_lt hle hhi
  have h := rangeSelect_eq_window file files ((files.drop lo).take (hi + 1 - lo))
    files[lo] files[hi] hview hfile
    (List.Nodup.sublist ((window_sublist files lo _).map _) hview)
    (by rw [window_head files lo hi hle, List.getElem?_eq_getElem hlo])
    (by rw [window_last files lo hi hle hhi, List.getElem?_eq_getElem hhi])
    (List.getElem_mem _) (List.getElem_mem _)
  rw [List.indexOf_getElem hnd lo hlo, List.indexOf_getElem hnd hi hhi] at h
  exact h

theorem take_one_drop_indexOf (file : SiaFile) (files : List SiaFile) (hfile : file ∈ files) :
    (files.drop (List.indexOf file files)).take 1 = [file] := by
  have he : List.indexOf file files < files.length := List.indexOf_lt_length.2 hfile
  rw [List.drop_eq_getElem_cons he, List.take_succ_cons, List.take_zero,
    List.getElem_indexOf he]

/-- C18 (amended): for a view with pairwise distinct siapaths, a target in the view
and a non-empty selection whose elements are in the view, selecting the same
target again changes nothing when the first selected element is not after the
target or the last selected element is the target; when both the first and the
last selected elements are after the target, the second selection is the target
alone and differs from the first. -/
theorem rangeSelect_idempotent (file : SiaFile) (files selectedFiles : List SiaFile)
    (first last : SiaFile)
    (hview : (files.map (fun f => f.siapath)).Nodup)
    (hfile : file ∈ files)
    (hnodup : selectedFiles.Nodup)
    (hfirst : selectedFiles.head? = some first) (hlast : selectedFiles.getLast? = some last)
    (hmem : ∀ x ∈ selectedFiles, x ∈ files) :
    ((List.indexOf first files ≤ List.indexOf file files ∨ last = file) →
      rangeSelect file files (rangeSelect file files selectedFiles)
        = rangeSelect file files selectedFiles) ∧
    ((List.indexOf file files < List.indexOf first files ∧
        List.indexOf file files < List.indexOf last files) →
      rangeSelect file files (rangeSelect file files selectedFiles) = [file] ∧
      rangeSelect file files (rangeSelect file files selectedFiles)
        ≠ rangeSelect file files selectedFiles) := by
  have hsel : (selectedFiles.map (fun f => f.siapath)).Nodup :=
    List.Nodup.map_on
      (fun x hx y hy hxy => List.inj_on_of_nodup_map hview (hmem x hx) (hmem y hy) hxy) hnodup
  have hfv : first ∈ files := hmem first (List.mem_of_mem_head? hfirst)
  have hlv : last ∈ files := hmem last (List.mem_of_mem_getLast? hlast)
  have hs : List.indexOf first files < files.length := List.indexOf_lt_length.2 hfv
  have he : List.indexOf file files < files.length := List.indexOf_lt_length.2 hfile
  have hl : List.indexOf last files < files.length := List.indexOf_lt_length.2 hlv
  have hR := rangeSelect_eq_window file files selectedFiles first last hview hfile hsel
    hfirst hlast hfv hlv
  constructor
  · rintro (hse | hlast_eq)
    · rw [if_pos hse, if_pos hse] at hR
      rw [hR, rangeSelect_of_window file files _ _ hview hfile hse he, if_pos hse, if_pos hse]
    · subst hlast_eq
      by_cases hse : List.indexOf first files ≤ List.indexOf last files
      · rw [if_pos hse, if_pos hse] at hR
        rw [hR, rangeSelect_of_window last files _ _ hview hfile hse he, if_pos hse, if_pos hse]
      · rw [if_neg hse, if_neg hse] at hR
        rw [hR, rangeSelect_of_window last files _ _ hview hfile le_rfl he, if_pos le_rfl]
  · rintro ⟨hes, hel⟩
    have hse : ¬ List.indexOf first files ≤ List.indexOf file files := by omega
    rw [if_neg hse, if_neg hse] at hR
    have h2 : rangeSelect file files (rangeSelect file files selectedFiles) = [file] := by
      rw [hR, rangeSelect_of_window file files _ _ hview hfile (le_of_lt hel) hl, if_pos le_rfl,
        if_pos le_rfl]
      have : List.indexOf file files + 1 - List.indexOf file files = 1 := by omega
      rw [this]
      exact take_one_drop_indexOf file files hfile
    refine ⟨h2, ?_⟩
    rw [h2, hR]
    intro heq
    have hlen := congrArg List.length heq
    rw [List.length_take, List.length_drop] at hlen
    simp only [List.length_singleton] at hlen
    omega

/-- C18 (witness): selection `{B}` and target `D` in the view `[A, B, C, D, E]`. -/
theorem rangeSelect_idempotent_witness :
    (viewAE.map (fun f => f.siapath)).Nodup ∧ fileD ∈ viewAE ∧ [fileB].Nodup ∧
    (∀ x ∈ [fileB], x ∈ viewAE) ∧
    (((List.indexOf fileB viewAE ≤ List.indexOf fileD viewAE ∨ fileB = fileD) →
      rangeSelect fileD viewAE (rangeSelect fileD viewAE [fileB])
        = rangeSelect fileD viewAE [fileB]) ∧
    ((List.indexOf fileD viewAE < List.indexOf fileB viewAE ∧
        List.indexOf fileD viewAE < List.indexOf fileB viewAE) →
      rangeSelect fileD viewAE (rangeSelect fileD viewAE [fileB]) = [fileD] ∧
      rangeSelect fileD viewAE (rangeSelect fileD viewAE [fileB])
        ≠ rangeSelect fileD viewAE [fileB])) :=
  ⟨by decide, by decide, by decide, by decide,
    rangeSelect_idempotent fileD viewAE [fileB] fileB fileB (by decide) (by decide) (by decide)
      rfl rfl (by decide)⟩

/-- C18 (counterexample): in the view `[A, B, C, D, E]` with selection `{B, D}` and
target `A`, the first selection is `{A, B, C, D}` and selecting `A` again gives
`{A}`. -/
theorem rangeSelect_idempotent_counterexample :
    (viewAE.map (fun f => f.siapath)).Nodup ∧ fileA ∈ viewAE ∧ [fileB, fileD].Nodup ∧
    (∀ x ∈ [fileB, fileD], x ∈ viewAE) ∧
    rangeSelect fileA viewAE [fileB, fileD] = [fileA, fileB, fileC, fileD] ∧
    rangeSelect fileA viewAE (rangeSelect fileA viewAE [fileB, fileD]) = [fileA] ∧
    rangeSelect fileA viewAE (rangeSelect fileA viewAE [fileB, fileD])
      ≠ rangeSelect fileA viewAE [fileB, fileD] := by
  refine ⟨by decide, by decide, by decide, by decide, by decide, by decide, by decide⟩

/-- C20 (failing input): in the view `[A, B, C, D, E]` with selection `{D, B}`
(first `D`, last `B`) and target `C`, the start index 3 is above the end index 2,
the window becomes `[2, 1]`, and the result is empty: the clicked file is not
selected. -/
theorem rangeSelect_drops_target :
    (viewAE.map (fun f => f.siapath)).Nodup ∧ fileC ∈ viewAE ∧ [fileD, fileB].Nodup ∧
    (∀ x ∈ [fileD, fileB], x ∈ viewAE) ∧
    rangeSelect fileC viewAE [fileD, fileB] = [] ∧
    fileC ∉ rangeSelect fileC viewAE [fileD, fileB] := by
  refine ⟨by decide, by decide, by decide, by decide, by decide, by decide⟩

/-! ## `estimatedStorage` without usable prices -/

theorem roundHalfUp_zero : roundHalfUp 0 = 0 := by
  unfold roundHalfUp
  norm_num

theorem roundDP_zero (dp : ℕ) : roundDP dp 0 = 0 := by
  unfold roundDP
  simp [roundHalfUp_zero]

theorem readableFilesize_nan : readableFilesize .nan = ['N', 'a', 'N', ' ', 'B'] := by
  decide

theorem readableFilesize_posInf :
    readableFilesize .posInf = ['I', 'n', 'f', 'i', 'n', 'i', 't', 'y', ' ', 'B'] := by
  decide

theorem readableFilesize_zero : readableFilesize (.fin 0) = ['0', ' ', 'B'] := by
  with_unfolding_all decide

theorem estimatedBytes_nil (dp : ℕ) (funds : ℚ) : estimatedBytes dp funds [] = .nan := by
  simp [estimatedBytes, storageQuotient, avgStorageCost, avgHostMetric, siacoinsToHastings,
    Num.dividedBy, Num.times, Num.plus, Num.minus, Num.neg, toNumber, stringToNumber,
    toPrecision1, mathMax0]

theorem sum_map_zero (l : List HostQuote) (metric : HostQuote → ℚ)
    (h : ∀ host ∈ l, metric host = 0) : (l.map metric).sum = 0 := by
  induction l with
  | nil => simp
  | cons a l ih =>
    rw [List.map_cons, List.sum_cons, h a (List.mem_cons_self _ _),
      ih (fun host hh => h host (List.mem_cons_of_mem _ hh)), add_zero]

theorem avgHostMetric_zero (dp : ℕ) (hosts : List HostQuote) (metric : HostQuote → ℚ)
    (hne : hosts ≠ []) (h : ∀ host ∈ hosts, metric host = 0) :
    avgHostMetric dp hosts metric = .fin 0 := by
  rw [avgHostMetric_fin dp hosts metric hne, sum_map_zero hosts metric h, zero_div, roundDP_zero]

theorem estimatedBytes_zero_prices (dp : ℕ) (funds : ℚ) (hosts : List HostQuote)
    (hne : hosts ≠ [])
    (h : ∀ host ∈ hosts.take 28, host.storageprice = 0 ∧ host.uploadbandwidthprice = 0 ∧
      host.downloadbandwidthprice = 0 ∧ host.contractprice = 0) :
    estimatedBytes dp funds hosts =
      if funds = 240 * 10 ^ 24 then .nan
      else if 240 * 10 ^ 24 < funds then .posInf else .fin 0 := by
  have hne' : hosts.take 28 ≠ [] := by
    cases hosts with
    | nil => exact absurd rfl hne
    | cons a l => simp
  have h1 := avgHostMetric_zero dp _ (fun h => h.storageprice) hne' (fun x hx => (h x hx).1)
  have h2 := avgHostMetric_zero dp _ (fun h => h.uploadbandwidthprice) hne'
    (fun x hx => (h x hx).2.1)
  have h3 := avgHostMetric_zero dp _ (fun h => h.downloadbandwidthprice) hne'
    (fun x hx => (h x hx).2.2.1)
  have h4 := avgHostMetric_zero dp _ (fun h => h.contractprice) hne'
    (fun x hx => (h x hx).2.2.2)
  have key : ∀ x : ℚ,
      mathMax0 (stringToNumber (toPrecision1 (toNumber (Num.dividedBy dp (.fin x) (.fin 0)))))
      = if x = 0 then .nan else if 0 < x then .posInf else .fin 0 := by
    intro x
    by_cases hx0 : x = 0
    · simp [hx0, Num.dividedBy, toNumber, stringToNumber, toPrecision1, mathMax0]
    · by_cases hxp : 0 < x
      · simp [hx0, hxp, Num.dividedBy, toNumber, stringToNumber, toPrecision1, mathMax0]
      · simp [hx0, hxp, Num.dividedBy, toNumber, stringToNumber, toPrecision1, mathMax0]
  unfold estimatedBytes storageQuotient
  simp only [avgStorageCost, h1, h2, h3, h4, siacoinsToHastings, times_fin, plus_fin, minus_fin,
    baseFee, ncontracts, siafundRate]
  norm_num only [zero_mul, add_zero, mul_zero, zero_add, Nat.cast_ofNat]
  rw [key]
  by_cases heq : funds = 240000000000000000000000000
  · have hx : funds + -(240000000000000000000000000
        + (funds + -240000000000000000000000000) * (3 / 25)) = 0 := by
      rw [heq]; norm_num
    rw [if_pos hx, if_pos heq]
  · by_cases hlt : 240000000000000000000000000 < funds
    · have hx : 0 < funds + -(240000000000000000000000000
          + (funds + -240000000000000000000000000) * (3 / 25)) := by linarith
      rw [if_neg (ne_of_gt hx), if_pos hx, if_neg heq, if_pos hlt]
    · have hlt' : funds < 240000000000000000000000000 := lt_of_le_of_ne (not_lt.1 hlt) heq
      have hx : funds + -(240000000000000000000000000
          + (funds + -240000000000000000000000000) * (3 / 25)) < 0 := by linarith
      rw [if_neg (ne_of_lt hx), if_neg (not_lt.2 (le_of_lt hx)), if_neg heq, if_neg hlt]

/-- C11 (amended): `estimatedStorage` raises no error.  With an empty host list it
returns `~NaN B`; with a non-empty host list whose sampled hosts have all four
prices zero it returns `~Infinity B` when the funds exceed 240 siacoins, `~NaN B`
when they equal 240 siacoins and `~0 B` when they are below. -/
theorem estimatedStorage_no_data (dp : ℕ) (funds : ℚ) (hosts : List HostQuote)
    (h : hosts = [] ∨ ∀ host ∈ hosts.take 28, host.storageprice = 0 ∧
      host.uploadbandwidthprice = 0 ∧ host.downloadbandwidthprice = 0 ∧
      host.contractprice = 0) :
    estimatedStorage dp funds hosts =
      if hosts = [] ∨ funds = 240 * 10 ^ 24 then ['~', 'N', 'a', 'N', ' ', 'B']
      else if 240 * 10 ^ 24 < funds then ['~', 'I', 'n', 'f', 'i', 'n', 'i', 't', 'y', ' ', 'B']
      else ['~', '0', ' ', 'B'] := by
  unfold estimatedStorage
  by_cases hnil : hosts = []
  · subst hnil
    rw [estimatedBytes_nil, readableFilesize_nan]
    simp
  · have hz : ∀ host ∈ hosts.take 28, host.storageprice = 0 ∧
        host.uploadbandwidthprice = 0 ∧ host.downloadbandwidthprice = 0 ∧
        host.contractprice = 0 := by
      rcases h with h | h
      · exact absurd h hnil
      · exact h
    rw [estimatedBytes_zero_prices dp funds hosts hnil hz]
    by_cases heq : funds = 240 * 10 ^ 24
    · have hor : hosts = [] ∨ funds = 240 * 10 ^ 24 := Or.inr heq
      rw [if_pos heq, if_pos hor, readableFilesize_nan]
    · have hor : ¬ (hosts = [] ∨ funds = 240 * 10 ^ 24) := by
        rintro (h' | h')
        · exact hnil h'
        · exact heq h'
      by_cases hlt : 240 * 10 ^ 24 < funds
      · simp only [if_neg heq, if_neg hor, if_pos hlt, readableFilesize_posInf]
      · simp only [if_neg heq, if_neg hor, if_neg hlt, readableFilesize_zero]

/-- C11 (witness): one host with all prices zero and funds of 1000 siacoins. -/
theorem estimatedStorage_no_data_witness :
    ([zeroHost] = [] ∨ ∀ host ∈ [zeroHost].take 28, host.storageprice = 0 ∧
      host.uploadbandwidthprice = 0 ∧ host.downloadbandwidthprice = 0 ∧
      host.contractprice = 0) ∧
    estimatedStorage 20 (10 ^ 27) [zeroHost] =
      (if [zeroHost] = [] ∨ (10 ^ 27 : ℚ) = 240 * 10 ^ 24 then ['~', 'N', 'a', 'N', ' ', 'B']
      else if 240 * 10 ^ 24 < (10 ^ 27 : ℚ)
        then ['~', 'I', 'n', 'f', 'i', 'n', 'i', 't', 'y', ' ', 'B']
      else ['~', '0', ' ', 'B']) :=
  ⟨Or.inr (by decide), estimatedStorage_no_data 20 (10 ^ 27) [zeroHost] (Or.inr (by decide))⟩

/-- C11 (counterexample): with no hosts the estimate is the string `~NaN B`, and
with one host whose prices are all zero and funds of 1000 siacoins it is the
string `~Infinity B`. -/
theorem estimatedStorage_no_data_counterexample :
    estimatedStorage 20 0 [] = ['~', 'N', 'a', 'N', ' ', 'B'] ∧
    estimatedStorage 20 (10 ^ 27) [zeroHost]
      = ['~', 'I', 'n', 'f', 'i', 'n', 'i', 't', 'y', ' ', 'B'] := by
  constructor
  · with_unfolding_all decide
  · with_unfolding_all decide

/-! ## `estimatedStorage` with zero funds -/

theorem roundDP_nonneg (dp : ℕ) (q : ℚ) (h : 0 ≤ q) : 0 ≤ roundDP dp q := by
  unfold roundDP
  rw [if_neg (not_lt.2 h)]
  exact div_nonneg (Nat.cast_nonneg _) (pow_nonneg (by norm_num) _)

theorem roundDP_nonpos (dp : ℕ) (q : ℚ) (h : q ≤ 0) : roundDP dp q ≤ 0 := by
  by_cases h0 : q = 0
  · rw [h0, roundDP_zero]
  · unfold roundDP
    rw [if_pos (lt_of_le_of_ne h h0)]
    have : (0 : ℚ) ≤ (roundHalfUp (-q * 10 ^ dp) : ℚ) / 10 ^ dp :=
      div_nonneg (Nat.cast_nonneg _) (pow_nonneg (by norm_num) _)
    linarith

theorem specMean_nonneg (dp : ℕ) (hosts : List HostQuote) (metric : HostQuote → ℚ)
    (h : ∀ host ∈ hosts, 0 ≤ metric host) : 0 ≤ specMean dp hosts metric := by
  unfold specMean
  apply roundDP_nonneg
  apply div_nonneg
  · apply List.sum_nonneg
    intro x hx
    rw [List.mem_map] at hx
    obtain ⟨host, hhost, rfl⟩ := hx
    rw [specSample_eq] at hhost
    exact h host (List.mem_of_mem_take hhost)
  · exact Nat.cast_nonneg _

/-- C13: for a non-empty host list with non-negative prices and positive average
storage cost, `estimatedStorage(0, hosts)` is `~0 B`. -/
theorem estimatedStorage_zero_funds (dp : ℕ) (hosts : List HostQuote) (hne : hosts ≠ [])
    (hprices : ∀ host ∈ hosts, 0 ≤ host.storageprice ∧ 0 ≤ host.uploadbandwidthprice ∧
      0 ≤ host.downloadbandwidthprice ∧ 0 ≤ host.contractprice)
    (hpos : 0 < specAvgStorageCost dp hosts) :
    estimatedStorage dp 0 hosts = ['~', '0', ' ', 'B'] := by
  have hcp : 0 ≤ specMean dp hosts (fun h => h.contractprice) :=
    specMean_nonneg dp hosts _ (fun host hh => (hprices host hh).2.2.2)
  have hfee : 0 ≤ specFee dp 0 hosts := by
    unfold specFee specBaseFee
    have : (0 : ℚ) ≤ 240 * 10 ^ 24 := by norm_num
    linarith
  have hq : (0 - specFee dp 0 hosts) / specAvgStorageCost dp hosts ≤ 0 :=
    div_nonpos_of_nonpos_of_nonneg (by linarith) (le_of_lt hpos)
  have hbytes : specBytes dp 0 hosts = 0 := by
    unfold specBytes
    exact max_eq_left (roundDP_nonpos dp _ hq)
  unfold estimatedStorage
  rw [estimatedBytes_eq dp 0 hosts hne hpos, hbytes]
  have h0 : roundSig1 0 = 0 := by simp [roundSig1]
  rw [toDouble_zero, h0, toDouble_zero, readableFilesize_zero]

/-- C13 (witness): two equal hosts with positive prices. -/
theorem estimatedStorage_zero_funds_witness :
    [exampleHost, exampleHost] ≠ [] ∧
    (∀ host ∈ [exampleHost, exampleHost], 0 ≤ host.storageprice ∧
      0 ≤ host.uploadbandwidthprice ∧ 0 ≤ host.downloadbandwidthprice ∧
      0 ≤ host.contractprice) ∧
    0 < specAvgStorageCost 20 [exampleHost, exampleHost] ∧
    estimatedStorage 20 0 [exampleHost, exampleHost] = ['~', '0', ' ', 'B'] :=
  ⟨by decide, by with_unfolding_all decide, by with_unfolding_all decide,
    estimatedStorage_zero_funds 20 [exampleHost, exampleHost] (by decide)
      (by with_unfolding_all decide) (by with_unfolding_all decide)⟩

/-! ## `estimatedStorage` is monotone in the funds -/

theorem roundHalfUp_mono (a b : ℚ) (h : a ≤ b) : roundHalfUp a ≤ roundHalfUp b := by
  unfold roundHalfUp
  exact Int.toNat_le_toNat (Int.floor_le_floor (by linarith))

theorem roundDP_mono (dp : ℕ) (a b : ℚ) (h : a ≤ b) : roundDP dp a ≤ roundDP dp b := by
  have hP : (0 : ℚ) < 10 ^ dp := pow_pos (by norm_num) _
  by_cases ha : a < 0
  · by_cases hb : b < 0
    · unfold roundDP
      rw [if_pos ha, if_pos hb]
      have hmono : roundHalfUp (-b * 10 ^ dp) ≤ roundHalfUp (-a * 10 ^ dp) :=
        roundHalfUp_mono _ _ (mul_le_mul_of_nonneg_right (by linarith) (le_of_lt hP))
      have hcast : (roundHalfUp (-b * 10 ^ dp) : ℚ) ≤ (roundHalfUp (-a * 10 ^ dp) : ℚ) := by
        exact_mod_cast hmono
      have := div_le_div_of_nonneg_right hcast (le_of_lt hP)
      linarith
    · exact le_trans (roundDP_nonpos dp a (le_of_lt ha)) (roundDP_nonneg dp b (not_lt.1 hb))
  · have hb : ¬ b < 0 := not_lt.2 (le_trans (not_lt.1 ha) h)
    unfold roundDP
    rw [if_neg ha, if_neg hb]
    have hmono : roundHalfUp (a * 10 ^ dp) ≤ roundHalfUp (b * 10 ^ dp) :=
      roundHalfUp_mono _ _ (mul_le_mul_of_nonneg_right h (le_of_lt hP))
    have hcast : (roundHalfUp (a * 10 ^ dp) : ℚ) ≤ (roundHalfUp (b * 10 ^ dp) : ℚ) := by
      exact_mod_cast hmono
    exact div_le_div_of_nonneg_right hcast (le_of_lt hP)

theorem exponent10_spec (a : ℚ) (ha : 0 < a) :
    (10 : ℚ) ^ exponent10 a ≤ a ∧ a < (10 : ℚ) ^ (exponent10 a + 1) := by
  rw [exponent10_eq]
  by_cases h1 : 1 ≤ a
  · rw [if_pos h1]
    have hfloor : ⌊a⌋₊ ≠ 0 := by
      have : 1 ≤ ⌊a⌋₊ := Nat.le_floor (by simpa using h1)
      omega
    constructor
    · rw [zpow_natCast]
      have h := Nat.pow_log_le_self 10 hfloor
      have h' : ((10 ^ Nat.log 10 ⌊a⌋₊ : ℕ) : ℚ) ≤ (⌊a⌋₊ : ℚ) := by exact_mod_cast h
      push_cast at h'
      exact le_trans h' (Nat.floor_le (le_of_lt ha))
    · have h := Nat.lt_pow_succ_log_self (by norm_num : 1 < 10) ⌊a⌋₊
      have h' := (Nat.floor_lt (le_of_lt ha)).1 h
      have hexp : ((Nat.log 10 ⌊a⌋₊ : ℕ) : ℤ) + 1 = (((Nat.log 10 ⌊a⌋₊).succ : ℕ) : ℤ) := by
        push_cast
        rfl
      rw [hexp, zpow_natCast]
      push_cast at h'
      exact h'
  · rw [if_neg h1]
    have hlt : a < 1 := not_le.1 h1
    have hinv : 1 < 1 / a := by
      rw [lt_div_iff₀ ha]
      linarith
    have hceil : 1 < ⌈1 / a⌉₊ := Nat.lt_ceil.2 (by simpa using hinv)
    have hP : ∀ n : ℕ, (0 : ℚ) < 10 ^ n := fun n => pow_pos (by norm_num) n
    constructor
    · rw [zpow_neg, zpow_natCast]
      have h := Nat.le_pow_clog (by norm_num : 1 < 10) ⌈1 / a⌉₊
      have h' : 1 / a ≤ ((10 ^ Nat.clog 10 ⌈1 / a⌉₊ : ℕ) : ℚ) := Nat.ceil_le.1 h
      push_cast at h'
      have := (one_div_le ha (hP _)).1 h'
      rwa [one_div] at this
    · have h := Nat.pow_pred_clog_lt_self (by norm_num : 1 < 10) hceil
      have h' : ((10 ^ (Nat.clog 10 ⌈1 / a⌉₊).pred : ℕ) : ℚ) < 1 / a := Nat.lt_ceil.1 h
      push_cast at h'
      have hk : 1 ≤ Nat.clog 10 ⌈1 / a⌉₊ := Nat.clog_pos (by norm_num) (by omega)
      have hexp : -((Nat.clog 10 ⌈1 / a⌉₊ : ℕ) : ℤ) + 1
          = -(((Nat.clog 10 ⌈1 / a⌉₊).pred : ℕ) : ℤ) := by
        rw [Nat.pred_eq_sub_one]
        omega
      rw [hexp, zpow_neg, zpow_natCast]
      have := (lt_one_div (hP _) ha).1 h'
      rwa [one_div] at this

theorem roundSig1_of_pos (q : ℚ) (hq : 0 < q) :
    roundSig1 q = (roundHalfUp (q / 10 ^ exponent10 q) : ℚ) * 10 ^ exponent10 q := by
  unfold roundSig1
  rw [if_neg (ne_of_gt hq), if_neg (not_lt.2 (le_of_lt hq))]

theorem leadingDigit_bounds (q : ℚ) (hq : 0 < q) :
    1 ≤ roundHalfUp (q / 10 ^ exponent10 q) ∧ roundHalfUp (q / 10 ^ exponent10 q) ≤ 10 := by
  obtain ⟨hlo, hhi⟩ := exponent10_spec q hq
  have hP : (0 : ℚ) < 10 ^ exponent10 q := zpow_pos (by norm_num) _
  have h1 : 1 ≤ q / 10 ^ exponent10 q := by
    rw [le_div_iff₀ hP]
    simpa using hlo
  have h2 : q / 10 ^ exponent10 q < 10 := by
    rw [div_lt_iff₀ hP]
    rw [zpow_add_one₀ (by norm_num : (10 : ℚ) ≠ 0)] at hhi
    linarith
  unfold roundHalfUp
  constructor
  · have hz : (1 : ℤ) ≤ ⌊q / 10 ^ exponent10 q + 1 / 2⌋ := by
      rw [Int.le_floor]
      push_cast
      linarith
    have := (Int.le_toNat (n := 1) (by omega : (0 : ℤ) ≤ ⌊q / 10 ^ exponent10 q + 1 / 2⌋)).2
      (by exact_mod_cast hz)
    exact this
  · rw [Int.toNat_le]
    have hz : ⌊q / 10 ^ exponent10 q + 1 / 2⌋ < 11 := by
      rw [Int.floor_lt]
      push_cast
      linarith
    push_cast
    omega

theorem roundSig1_mono (a b : ℚ) (ha : 0 ≤ a) (hab : a ≤ b) : roundSig1 a ≤ roundSig1 b := by
  by_cases ha0 : a = 0
  · rw [ha0]
    have h0 : roundSig1 0 = 0 := by simp [roundSig1]
    rw [h0]
    exact roundSig1_nonneg b (le_trans ha hab)
  · have hapos : 0 < a := lt_of_le_of_ne ha (Ne.symm ha0)
    have hbpos : 0 < b := lt_of_lt_of_le hapos hab
    obtain ⟨halo, -⟩ := exponent10_spec a hapos
    obtain ⟨hblo, hbhi⟩ := exponent10_spec b hbpos
    obtain ⟨-, hNa⟩ := leadingDigit_bounds a hapos
    obtain ⟨hNb, -⟩ := leadingDigit_bounds b hbpos
    have hPa : (0 : ℚ) < 10 ^ exponent10 a := zpow_pos (by norm_num) _
    have hPb : (0 : ℚ) < 10 ^ exponent10 b := zpow_pos (by norm_num) _
    have hexp : exponent10 a < exponent10 b + 1 :=
      (zpow_lt_zpow_iff_right₀ (by norm_num : (1 : ℚ) < 10)).1
        (lt_of_le_of_lt halo (lt_of_le_of_lt hab hbhi))
    rw [roundSig1_of_pos a hapos, roundSig1_of_pos b hbpos]
    by_cases heq : exponent10 a = exponent10 b
    · rw [heq]
      apply mul_le_mul_of_nonneg_right _ (le_of_lt hPb)
      have hmono := roundHalfUp_mono (a / 10 ^ exponent10 b) (b / 10 ^ exponent10 b)
        (div_le_div_of_nonneg_right hab (le_of_lt hPb))
      exact_mod_cast hmono
    · have hlt : exponent10 a + 1 ≤ exponent10 b := by omega
      have hNa' : (roundHalfUp (a / 10 ^ exponent10 a) : ℚ) ≤ 10 := by exact_mod_cast hNa
      have hNb' : (1 : ℚ) ≤ (roundHalfUp (b / 10 ^ exponent10 b) : ℚ) := by exact_mod_cast hNb
      have hstep : (10 : ℚ) ^ (exponent10 a + 1) ≤ 10 ^ exponent10 b :=
        zpow_le_zpow_right₀ (by norm_num) hlt
      rw [zpow_add_one₀ (by norm_num : (10 : ℚ) ≠ 0)] at hstep
      calc (roundHalfUp (a / 10 ^ exponent10 a) : ℚ) * 10 ^ exponent10 a
          ≤ 10 * 10 ^ exponent10 a := mul_le_mul_of_nonneg_right hNa' (le_of_lt hPa)
        _ = 10 ^ exponent10 a * 10 := mul_comm _ _
        _ ≤ 10 ^ exponent10 b := hstep
        _ = 1 * 10 ^ exponent10 b := (one_mul _).symm
        _ ≤ (roundHalfUp (b / 10 ^ exponent10 b) : ℚ) * 10 ^ exponent10 b :=
          mul_le_mul_of_nonneg_right hNb' (le_of_lt hPb)

theorem specAvgStorageCost_nil (dp : ℕ) : specAvgStorageCost dp [] = 0 := by
  simp [specAvgStorageCost, specMean, specSample, roundDP_zero]

theorem specBytes_mono (dp : ℕ) (f1 f2 : ℚ) (hosts : List HostQuote)
    (hpos : 0 < specAvgStorageCost dp hosts) (h : f1 ≤ f2) :
    specBytes dp f1 hosts ≤ specBytes dp f2 hosts := by
  unfold specBytes
  apply max_le_max (le_refl 0)
  apply roundDP_mono
  apply div_le_div_of_nonneg_right _ (le_of_lt hpos)
  unfold specFee
  linarith

/-- C12: for a host list with positive average storage cost and funds
`f1 ≤ f2`, the byte estimates that `estimatedStorage` formats (clamped at 0 and
rounded to one significant digit) are finite numbers, and the one for `f1` is at
most the one for `f2`. -/
theorem estimatedStorage_monotone (dp : ℕ) (f1 f2 : ℚ) (hosts : List HostQuote)
    (hpos : 0 < specAvgStorageCost dp hosts) (h : f1 ≤ f2) :
    ∃ b1 b2 : ℚ, estimatedBytes dp f1 hosts = .fin b1 ∧ estimatedBytes dp f2 hosts = .fin b2 ∧
      b1 ≤ b2 := by
  have hne : hosts ≠ [] := by
    intro hnil
    rw [hnil, specAvgStorageCost_nil] at hpos
    exact lt_irrefl 0 hpos
  refine ⟨_, _, estimatedBytes_eq dp f1 hosts hne hpos, estimatedBytes_eq dp f2 hosts hne hpos, ?_⟩
  have h0 : 0 ≤ specBytes dp f1 hosts := by
    unfold specBytes
    exact le_max_left _ _
  have h1 : 0 ≤ toDouble (specBytes dp f1 hosts) := toDouble_nonneg _ h0
  apply toDouble_mono _ _ (roundSig1_nonneg _ h1)
  apply roundSig1_mono _ _ h1
  exact toDouble_mono _ _ h0 (specBytes_mono dp f1 f2 hosts hpos h)

/-- C12 (witness): two equal hosts, funds of 500 and of 1000 siacoins. -/
theorem estimatedStorage_monotone_witness :
    0 < specAvgStorageCost 20 [exampleHost, exampleHost] ∧ (5 * 10 ^ 26 : ℚ) ≤ 10 ^ 27 ∧
    ∃ b1 b2 : ℚ, estimatedBytes 20 (5 * 10 ^ 26) [exampleHost, exampleHost] = .fin b1 ∧
      estimatedBytes 20 (10 ^ 27) [exampleHost, exampleHost] = .fin b2 ∧ b1 ≤ b2 :=
  ⟨by with_unfolding_all decide, by with_unfolding_all decide,
    estimatedStorage_monotone 20 (5 * 10 ^ 26) (10 ^ 27) [exampleHost, exampleHost]
      (by with_unfolding_all decide) (by with_unfolding_all decide)⟩

/-! ## `readableFilesize` below `10^18` bytes -/

theorem readableLoop_spec (us : List Str) (q : ℚ) (k : ℕ) (hk : k < us.length)
    (h1 : ∀ j < k, ¬ q / 1000 ^ j < 1000) (h2 : q / 1000 ^ k < 1000) :
    readableLoop us (.fin q) = (us[k], .fin (q / 1000 ^ k)) := by
  induction k generalizing us q with
  | zero =>
    cases us with
    | nil => simp at hk
    | cons u rest =>
      have hq : q < 1000 := by simpa using h2
      simp [readableLoop, Num.ltConst, hq]
  | succ k ih =>
    cases us with
    | nil => simp at hk
    | cons u rest =>
      have hq : ¬ q < 1000 := by simpa using h1 0 (Nat.succ_pos k)
      have hk' : k < rest.length := by simpa using hk
      have h1' : ∀ j < k, ¬ q / 1000 / 1000 ^ j < 1000 := by
        intro j hj
        have := h1 (j + 1) (Nat.succ_lt_succ hj)
        rwa [pow_succ, mul_comm, ← div_div] at this
      have h2' : q / 1000 / 1000 ^ k < 1000 := by
        rwa [pow_succ, mul_comm, ← div_div] at h2
      have hstep : readableLoop (u :: rest) (.fin q) = readableLoop rest (.fin (q / 1000)) := by
        simp [readableLoop, Num.ltConst, Num.divConst, hq]
      rw [hstep, ih rest (q / 1000) hk' h1' h2']
      simp only [List.getElem_cons_succ, Prod.mk.injEq, Num.fin.injEq, true_and]
      rw [pow_succ, mul_comm, ← div_div]

/-- Below the end of the unit table the unit scaling is as expected: when `k < 6`
is the least index with `n / 1000^k < 1000`, `readableFilesize(n)` is
`n / 1000^k` rounded to the nearest integer (a tie going up), a blank and the
`k`-th unit. -/
theorem readableFilesize_scaled (n k : ℕ) (hk : k < units.length)
    (h1 : ∀ j < k, ¬ (n : ℚ) / 1000 ^ j < 1000) (h2 : (n : ℚ) / 1000 ^ k < 1000) :
    readableFilesize (.fin (n : ℚ))
      = Nat.toDigits 10 (roundHalfUp ((n : ℚ) / 1000 ^ k)) ++ ' ' :: units[k] := by
  unfold readableFilesize
  rw [readableLoop_spec units (n : ℚ) k hk h1 h2]
  have hnn : ¬ ((n : ℚ) / 1000 ^ k < 0) := by
    apply not_lt.2
    exact div_nonneg (Nat.cast_nonneg _) (pow_nonneg (by norm_num) _)
  simp only [toFixed, if_neg hnn]

end SiaUI
